import Mathlib

/-
Verification of the Othello MPI engine (src/simon_v6.c) against its
natural-language specification.

The game engine is shallowly embedded:
* a board allocation is a total function from cell index (Fin 100) to a cell
  value (Nat); reads through an Int index use the helper rd, which yields the
  OUTER sentinel outside indices 0..99 (the C code never reads out of range on
  well-formed boards, which is proved below as part of claim C9);
* C machine integers become Int (indices, scores) or Nat (cell values, counts);
  the C operators / and % on int are Int.tdiv and Int.tmod (truncation toward
  zero, as C99 mandates);
* the two unbounded loops of the source (the bracket scan of
  find_bracket_piece and the flip loop of make_flips) are embedded with an
  explicit fuel of 200; fuel indifference above the actual iteration count is
  proved (findBracketFuel_congr, flipLoopFuel stability inside the lemmas);
* the double arithmetic of evaluate is embedded exactly: binary64 values are
  dyadic rationals m * 2^e (structure Dy); dyRnd performs the rounding of a
  result to 53 significant bits, round-to-nearest ties-to-even, and the
  double-to-int cast is dyTrunc (truncation toward zero);
* the mutable global state of the C file (the global board pointer, the heap
  of board allocations made by copy_board, my_colour, size) is an explicit
  MState record; alpha_beta and minimax are embedded as state-passing
  functions over MState, with pointer aliasing represented faithfully
  (a pointer is an index into the allocation list).
-/

set_option maxRecDepth 100000

/-- Cell value EMPTY of the source. -/
def EMPTY : Nat := 0

/-- Cell value BLACK of the source. -/
def BLACK : Nat := 1

/-- Cell value WHITE of the source. -/
def WHITE : Nat := 2

/-- Sentinel cell value OUTER of the source. -/
def OUTER : Nat := 3

/-- The eight ray directions of the source (const int ALLDIRECTIONS[8]). -/
def ALLDIRECTIONS : List Int := [-11, -10, -9, -1, 1, 9, 10, 11]

/-- One board allocation: 100 cells indexed 0..99. -/
abbrev Board := Fin 100 → Nat

/-- Reading cell i of a board through a C int index.  Outside 0..99 the read
yields OUTER; claim C9 proves that on well-formed boards the scans of the
source never perform such a read, so this default is never consulted there. -/
def rd (b : Board) (i : Int) : Nat :=
  if h : 0 ≤ i ∧ i < 100 then b ⟨i.toNat, by omega⟩ else OUTER

/-- Writing value v at C int index i (board[i] = v). Out-of-range writes are
dropped; all writes performed by the source on well-formed boards are in
range. -/
def wr (b : Board) (i : Int) (v : Nat) : Board :=
  fun j => if (j : Int) = i then v else b j

/-- The index list 1..88 of the counting loops of the source
(for i = 1; i <= 88; i++). -/
def idx188 : List Int := (List.range 88).map (fun (k : Nat) => (k : Int) + 1)

/-- The candidate move list 11..88 of legal_moves and num_valid_moves
(for move = 11; move <= 88; move++). -/
def idxMoves : List Int := (List.range 78).map (fun (k : Nat) => (k : Int) + 11)

/-- Function opponent of the source: BLACK and WHITE swap, any other player is
reported and mapped to the EMPTY sentinel. -/
def opponent (player : Nat) : Nat :=
  if player = BLACK then WHITE else if player = WHITE then BLACK else EMPTY

/-- Function validp of the source: the row and column components of the move
both lie in 1..8. -/
def validp (move : Int) : Bool :=
  11 ≤ move && move ≤ 88 && 1 ≤ move.tmod 10 && move.tmod 10 ≤ 8

/-- Loop of function find_bracket_piece of the source, with explicit fuel:
walk from square along dir while the cell holds the opponent's colour; return
the reached square if it holds the player's colour, else 0. -/
def findBracketFuel : Nat → Int → Int → Nat → Board → Int
  | 0, _, _, _, _ => 0
  | fuel + 1, square, dir, player, b =>
      if rd b square = opponent player then
        findBracketFuel fuel (square + dir) dir player b
      else if rd b square = player then square else 0

/-- Function find_bracket_piece of the source.  Fuel 200 is enough for every
run of its loop: the walk moves monotonically by dir each step and continues
only while the cell value is in 0..2, which forces the square to stay in
0..99, so at most 100 steps happen before the walk stops (proved in claim
C9 and in findBracketFuel_congr). -/
def find_bracket_piece (square dir : Int) (player : Nat) (b : Board) : Int :=
  findBracketFuel 200 square dir player b

/-- Function would_flip of the source. -/
def would_flip (move dir : Int) (player : Nat) (b : Board) : Int :=
  if rd b (move + dir) = opponent player then
    find_bracket_piece (move + dir + dir) dir player b
  else 0

/-- Function legalp of the source: a valid empty cell from which at least one
direction would flip. -/
def legalp (move : Int) (player : Nat) (b : Board) : Bool :=
  validp move && (rd b move == EMPTY) &&
    ALLDIRECTIONS.any (fun dir => would_flip move dir player b != 0)

/-- Function legal_moves of the source, as the ordered list of legal cells
scanned in increasing index order 11..88 (the C version stores the count in
moves[0] and the cells in moves[1..]; here the list is the cells and the
count is the length). -/
def legal_moves (player : Nat) (b : Board) : List Int :=
  idxMoves.filter (fun move => legalp move player b)

/-- Function num_valid_moves of the source.  Its board parameter is unused in
the C code: legalp reads the global board, embedded here as gb. -/
def num_valid_moves (player : Nat) (bparam : Board) (gb : Board) : Nat :=
  let _ := bparam
  (idxMoves.filter (fun move => legalp move player gb)).length

/-- Function count of the source: cells 1..88 holding the given value. -/
def count (player : Nat) (b : Board) : Nat :=
  idx188.countP (fun i => rd b i == player)

/-- Do-while loop of function make_flips of the source, with explicit fuel:
write player at c, step by dir, stop when the bracketing square is reached. -/
def flipLoopFuel : Nat → Int → Int → Int → Nat → Board → Board
  | 0, _, _, _, _, b => b
  | fuel + 1, c, dir, bracketer, player, b =>
      let b2 := wr b c player
      if c + dir = bracketer then b2
      else flipLoopFuel fuel (c + dir) dir bracketer player b2

/-- Function make_flips of the source. -/
def make_flips (move dir : Int) (player : Nat) (b : Board) : Board :=
  let bracketer := would_flip move dir player b
  if bracketer ≠ 0 then flipLoopFuel 200 (move + dir) dir bracketer player b
  else b

/-- Function make_move of the source: place the piece, then run make_flips on
the eight directions in array order. -/
def make_move (move : Int) (player : Nat) (b : Board) : Board :=
  ALLDIRECTIONS.foldl (fun bb dir => make_flips move dir player bb) (wr b move player)

/-- Weight table of the source (int weights[100]), read through an Int index
with default 0 (all indices used are in range). -/
def weights (i : Int) : Int :=
  [0, 0, 0, 0, 0, 0, 0, 0, 0, 0,
   0, 120, -20, 20, 5, 5, 20, -20, 120, 0,
   0, -20, -40, -5, -5, -5, -5, -40, -20, 0,
   0, 20, -5, 15, 3, 3, 15, -5, 20, 0,
   0, 5, -5, 3, 3, 3, 3, -5, 5, 0,
   0, 5, -5, 3, 3, 3, 3, -5, 5, 0,
   0, 20, -5, 15, 3, 3, 15, -5, 20, 0,
   0, -20, -40, -5, -5, -5, -5, -40, -20, 0,
   0, 120, -20, 20, 5, 5, 20, -20, 120, 0,
   0, 0, 0, 0, 0, 0, 0, 0, 0, 0].getD i.toNat 0

/-- Function game_stage of the source: coarse phase from the total number of
coins of my_colour and its opponent on the global board. -/
def game_stage (myc : Nat) (gb : Board) : Nat :=
  let opp := opponent myc
  let pcoins := idx188.countP (fun i => rd gb i == myc)
  let ocoins := idx188.countP (fun i => !(rd gb i == myc) && (rd gb i == opp))
  let total := pcoins + ocoins
  if total ≤ 20 then 1
  else if 20 < total ∧ total ≤ 40 then 2
  else if 40 < total then 3
  else 0

/-- The all-EMPTY-interior board with the OUTER sentinel ring, before the four
centre pieces of initialise_board are placed. -/
def baseBoard : Board :=
  fun i => if validp (i : Int) then EMPTY else OUTER

/-- The starting position built by initialise_board of the source. -/
def initialBoard : Board :=
  wr (wr (wr (wr baseBoard 44 WHITE) 45 BLACK) 54 BLACK) 55 WHITE

/-- Exact dyadic rational m * 2^e: the carrier of the binary64 model.  Every
double value that occurs in evaluate is such a number; operations below are
exact, and dyRnd performs the binary64 rounding step (53 significant bits,
round to nearest, ties to even).  Everything is integer arithmetic so that
concrete runs reduce inside the kernel. -/
structure Dy where
  m : Int
  e : Int
deriving DecidableEq

/-- The dyadic value of an int (exact int-to-double conversion at the
magnitudes of evaluate). -/
def dyOfInt (n : Int) : Dy := { m := n, e := 0 }

/-- Exact product of two dyadics (a binary64 multiplication is this followed
by dyRnd). -/
def dyMul (a b : Dy) : Dy := { m := a.m * b.m, e := a.e + b.e }

/-- Exact sum of two dyadics, aligning the exponents (a binary64 addition is
this followed by dyRnd). -/
def dyAdd (a b : Dy) : Dy :=
  if a.e ≤ b.e then { m := a.m + b.m * 2 ^ (b.e - a.e).toNat, e := a.e }
  else { m := a.m * 2 ^ (a.e - b.e).toNat + b.m, e := b.e }

/-- Width search for dyRnd: the smallest shift k with |m| / 2^k < 2^53,
found by a fuel loop. -/
def dyWidth : Nat → Int → Nat → Nat
  | 0, _, k => k
  | fuel + 1, n, k => if 2 ^ (53 : Nat) * 2 ^ k ≤ n then dyWidth fuel n (k + 1) else k

/-- Round-half-to-even of the division n / 2^k for n ≥ 0 (the binary64 tie
rule). -/
def roundHalfEven (n : Int) (k : Nat) : Int :=
  let q := n / 2 ^ k
  let r := n % 2 ^ k
  if 2 * r < 2 ^ k then q
  else if 2 ^ k < 2 * r then q + 1
  else if q % 2 = 0 then q else q + 1

/-- Binary64 rounding of an exact dyadic: a mantissa below 2^53 is already
representable and is kept exactly; a wider mantissa is shifted down with
round-to-nearest ties-to-even.  The exponents of evaluate stay far inside
the binary64 exponent range, so no overflow or subnormal case arises. -/
def dyRnd (a : Dy) : Dy :=
  let n := a.m.natAbs
  let sgn : Int := if a.m < 0 then -1 else 1
  if (n : Int) < 2 ^ (53 : Nat) then a
  else
    let k := dyWidth 3000 (n : Int) 0
    { m := sgn * roundHalfEven (n : Int) k, e := a.e + k }

/-- Truncation of a dyadic toward zero: the C double-to-int cast. -/
def dyTrunc (a : Dy) : Int :=
  if 0 ≤ a.e then a.m * 2 ^ a.e.toNat else a.m.tdiv (2 ^ (-a.e).toNat)

/-- Binary64 value of a positive decimal literal num / den: the smallest
scaling 2^k that brings the quotient into [2^52, 2^53) is found by a fuel
loop, and the scaled quotient is rounded half-to-even.  Every literal of
evaluate is in (1, 2^52), for which this search suffices. -/
def ratScale : Nat → Int → Int → Nat → Nat
  | 0, _, _, k => k
  | fuel + 1, num, den, k =>
      if num * 2 ^ k < 2 ^ (52 : Nat) * den then ratScale fuel num den (k + 1) else k

/-- Round-half-to-even of the division n / d for n, d ≥ 0. -/
def roundHalfEvenDiv (n d : Int) : Int :=
  let q := n / d
  let r := n % d
  if 2 * r < d then q
  else if d < 2 * r then q + 1
  else if q % 2 = 0 then q else q + 1

/-- The binary64 value of the decimal literal num / den (num may be
negative; den positive). -/
def ratToDy (num den : Int) : Dy :=
  let sgn : Int := if num < 0 then -1 else 1
  let n := (num.natAbs : Int)
  let k := ratScale 200 n den 0
  { m := sgn * roundHalfEvenDiv (n * 2 ^ k) den, e := -(k : Int) }

/-- The binary64 value of the literal 78.922 of the source. -/
def cMob : Dy := ratToDy 78922 1000

/-- The binary64 value of the literal 801.724 of the source. -/
def cCorn : Dy := ratToDy 801724 1000

/-- The binary64 value of the literal 382.026 of the source. -/
def cClose : Dy := ratToDy 382026 1000

/-- The binary64 value of the literal -12.5 of the source. -/
def cHalf : Dy := ratToDy (-25) 2

/-- Coin count pcoins of the main loop of evaluate (cells 1..88 holding
player). -/
def pcoinsE (player : Nat) (b : Board) : Nat :=
  idx188.countP (fun i => rd b i == player)

/-- Coin count ocoins of the main loop of evaluate: the else-if branch counts
cells not holding player that hold the opponent's colour. -/
def ocoinsE (player : Nat) (b : Board) : Nat :=
  idx188.countP (fun i => !(rd b i == player) && (rd b i == opponent player))

/-- Positional sum pcnt of evaluate: weights of the player's cells. -/
def pcntE (player : Nat) (b : Board) : Int :=
  (idx188.map (fun i => if rd b i == player then weights i else 0)).sum

/-- Positional sum ocnt of evaluate: weights of the opponent's cells (else-if
branch). -/
def ocntE (player : Nat) (b : Board) : Int :=
  (idx188.map (fun i =>
    if !(rd b i == player) && (rd b i == opponent player) then weights i else 0)).sum

/-- Position term of evaluate: pcnt - ocnt. -/
def positionE (player : Nat) (b : Board) : Int :=
  pcntE player b - ocntE player b

/-- Denominator pcoins + ocoins of the parity division of evaluate (line
parity = 100 * (pcoins - ocoins) / (pcoins + ocoins), which has no zero
guard in the source). -/
def parityDenE (player : Nat) (b : Board) : Int :=
  (pcoinsE player b : Int) + (ocoinsE player b : Int)

/-- Parity term of evaluate, the unguarded C division (Int.tdiv renders the
C semantics for a nonzero denominator; the C expression is undefined when the
denominator is zero, which parityDenE witnesses). -/
def parityE (player : Nat) (b : Board) : Int :=
  Int.tdiv (100 * ((pcoinsE player b : Int) - (ocoinsE player b : Int)))
    (parityDenE player b)

/-- Mobility term of evaluate before game-stage scaling.  Both pmoves and
omoves are num_valid_moves(player, board) in the source - the player argument
is passed twice - and num_valid_moves counts on the global board gb. -/
def mobilityRawE (player : Nat) (b : Board) (gb : Board) : Int :=
  let omoves := num_valid_moves player b gb
  let pmoves := num_valid_moves player b gb
  if ((pmoves : Int) + (omoves : Int)) ≠ 0 then
    Int.tdiv (100 * ((pmoves : Int) - (omoves : Int))) ((pmoves : Int) + (omoves : Int))
  else 0

/-- Corner-occupancy counts of evaluate over the four corners 11, 18, 81, 88
(pcoins component). -/
def cornerP (player : Nat) (b : Board) : Nat :=
  (if rd b 11 == player then 1 else 0) + (if rd b 18 == player then 1 else 0) +
  (if rd b 81 == player then 1 else 0) + (if rd b 88 == player then 1 else 0)

/-- Corner-occupancy counts of evaluate (ocoins component, else-if branches). -/
def cornerO (player : Nat) (b : Board) : Nat :=
  let opp := opponent player
  (if !(rd b 11 == player) && (rd b 11 == opp) then 1 else 0) +
  (if !(rd b 18 == player) && (rd b 18 == opp) then 1 else 0) +
  (if !(rd b 81 == player) && (rd b 81 == opp) then 1 else 0) +
  (if !(rd b 88 == player) && (rd b 88 == opp) then 1 else 0)

/-- Corner-occupancy term corner_occ = 25 * (pcoins - ocoins) of evaluate. -/
def cornerOccE (player : Nat) (b : Board) : Int :=
  25 * ((cornerP player b : Int) - (cornerO player b : Int))

/-- Per-corner tally of the corner-closeness block of evaluate for one corner
and its three neighbours: the block is guarded by board[corner] == 46,
the character code of the period (the source literally compares the cell to
the character constant of a period, not to EMPTY). -/
def ccCorner (player : Nat) (b : Board) (corner n1 n2 n3 : Int) : Nat × Nat :=
  if rd b corner = 46 then
    ((if rd b n1 == player then 1 else 0) + (if rd b n2 == player then 1 else 0) +
     (if rd b n3 == player then 1 else 0),
     (if !(rd b n1 == player) && (rd b n1 == opponent player) then 1 else 0) +
     (if !(rd b n2 == player) && (rd b n2 == opponent player) then 1 else 0) +
     (if !(rd b n3 == player) && (rd b n3 == opponent player) then 1 else 0))
  else (0, 0)

/-- Combined pcoins - ocoins of the four corner-closeness blocks of
evaluate. -/
def ccPairE (player : Nat) (b : Board) : Int :=
  let t11 := ccCorner player b 11 12 22 21
  let t18 := ccCorner player b 18 17 27 28
  let t81 := ccCorner player b 81 82 72 71
  let t88 := ccCorner player b 88 78 77 87
  ((t11.1 + t18.1 + t81.1 + t88.1 : Nat) : Int) -
    ((t11.2 + t18.2 + t81.2 + t88.2 : Nat) : Int)

/-- Corner-closeness value int cc = -12.5 * (pcoins - ocoins) of evaluate:
a double product truncated to int. -/
def ccE (player : Nat) (b : Board) : Int :=
  dyTrunc (dyRnd (dyMul cHalf (dyOfInt (ccPairE player b))))

/-- Mobility after scaling: mobility = (3 - game_stage()) * mobility, int
arithmetic; game_stage reads the global board gb and my_colour myc. -/
def mobilityScaledE (player : Nat) (b : Board) (myc : Nat) (gb : Board) : Int :=
  ((3 : Int) - (game_stage myc gb : Int)) * mobilityRawE player b gb

/-- Function evaluate of the source.  The final line sums position and
10 * parity in int arithmetic, then adds the three double products with
left-associated binary64 additions, and assigns the double to an int
(truncation).  The int-to-double conversions are exact at these magnitudes. -/
def evaluate (player : Nat) (b : Board) (myc : Nat) (gb : Board) : Int :=
  let position := positionE player b
  let parity := parityE player b
  let mobility := mobilityScaledE player b myc gb
  let corner_occ := cornerOccE player b
  let cc := ccE player b
  let s1 : Dy := dyOfInt (position + 10 * parity)
  let s2 : Dy := dyRnd (dyAdd s1 (dyRnd (dyMul cMob (dyOfInt mobility))))
  let s3 : Dy := dyRnd (dyAdd s2 (dyRnd (dyMul cCorn (dyOfInt corner_occ))))
  let s4 : Dy := dyRnd (dyAdd s3 (dyRnd (dyMul cClose (dyOfInt cc))))
  dyTrunc s4

/-- Function get_move_string of the source, as the four produced char codes
(two ASCII digits, a newline, a NUL terminator). -/
def get_move_string (loc : Int) : List Int :=
  let new_loc := loc - (9 + 2 * (Int.tdiv loc 10))
  let row := Int.tdiv new_loc 8
  let col := Int.tmod new_loc 8
  [row + 48, col + 48, 10, 0]

/-- Function get_loc of the source, reading the first two char codes of a
move string. -/
def get_loc (movestring : List Int) : Int :=
  let row := movestring.getD 0 0 - 48
  let col := movestring.getD 1 0 - 48
  10 * (row + 1) + col + 1

/-- Function dynamic_depth of the source (moves is the number of available
legal moves, size the MPI world size). -/
def dynamic_depth (size : Nat) (moves : Nat) : Nat :=
  if 3 ≤ moves ∧ moves < 8 then 6
  else if 8 ≤ moves ∧ moves < 15 then 5
  else if 15 ≤ moves then 4
  else if size = 1 then 0
  else 7

/-- Shared body of the two best-move loops of the source: keep the new
(move, score) pair exactly when its score is strictly greater than the best
score so far. -/
def selectStep (best pr : Int × Int) : Int × Int :=
  if pr.2 > best.2 then (pr.1, pr.2) else best

/-- Selection loop of gen_move_master (lines 473..486): best_score starts at
-2000 and best_move at rec_Moves[0]; each recorded (move, score) pair updates
them when its score is strictly greater.  The recorded pairs are given in
arrival order. -/
def masterSelect (recs : List (Int × Int)) : Int :=
  (recs.foldl selectStep ((recs.headD (0, 0)).1, -2000)).1

/-- Best-move loop of function serial (lines 523..545): best_move starts at
-100 and best_score at -2000; each (move, result) pair of the iteration
updates them when its result is strictly greater. -/
def serialSelect (recs : List (Int × Int)) : Int :=
  (recs.foldl selectStep (-100, -2000)).1

/-- Global mutable state of the source: the list of board allocations made so
far (a pointer is an index into it), the global board pointer, my_colour and
the MPI world size. -/
structure MState where
  heap : List Board
  bp : Nat
  myc : Nat
  size : Nat

/-- Dereference a board pointer (an unallocated pointer yields an all-OUTER
board; the runs considered below only dereference live pointers). -/
def deref (s : MState) (p : Nat) : Board :=
  s.heap.getD p (fun _ => OUTER)

/-- Function copy_board of the source: allocate a fresh board holding the
contents of the dereferenced argument, returning the new pointer. -/
def copy_board (s : MState) (p : Nat) : MState × Nat :=
  ({ s with heap := s.heap ++ [deref s p] }, s.heap.length)

/-- Function make_move acting through the global board pointer, as every call
in the source does (board[move] = player writes the global allocation). -/
def make_moveS (move : Int) (player : Nat) (s : MState) : MState :=
  { s with heap := s.heap.set s.bp (make_move move player (deref s s.bp)) }

/-- Loop body state of the reply loop of alpha_beta: alpha, beta, the machine
state, and whether the pruning break was taken. -/
structure ABLoopState where
  alpha : Int
  beta : Int
  s : MState
  done : Bool

/-- Depth-0 body of alpha_beta: copy sent_board into new_board (line 821)
and return the static evaluation of my_colour on it (line 825); the global
board is read by evaluate through num_valid_moves and game_stage. -/
def alphaBetaBase (sb : Nat) (s : MState) : Int × MState :=
  let (s1, nb) := copy_board s sb
  (evaluate s1.myc (deref s1 nb) s1.myc (deref s1 s1.bp), s1)

/-- Depth > 0 body of alpha_beta, parameterised by the recursive call
(which receives move, alpha, beta, colour, sent_board pointer, state).
Structure, in source order: make a copy of sent_board (new_board, line 821),
apply move_made through the global pointer (line 828), re-copy sent_board
into new_board (line 829), enumerate the opponent's replies on the global
board (line 830), return the static evaluation when there are none, else
fold the reply loop: recursive call on new_board, reassign the global
pointer to a fresh copy of new_board (line 842), apply the reply through the
global pointer (line 843), update alpha or beta, stop on alpha >= beta.
The first legal_moves call of the source (line 819) only fills a local
buffer that is later overwritten, so it has no embedded effect. -/
def alphaBetaStep (recurse : Int → Int → Int → Nat → Nat → MState → Int × MState)
    (move_made alpha beta : Int) (colour : Nat) (sb : Nat) (s : MState) :
    Int × MState :=
  let (s1, _) := copy_board s sb
  let s2 := make_moveS move_made colour s1
  let (s3, nb2) := copy_board s2 sb
  let oppMoves := legal_moves (opponent colour) (deref s3 s3.bp)
  if oppMoves = [] then
    (evaluate s3.myc (deref s3 nb2) s3.myc (deref s3 s3.bp), s3)
  else
    let final := oppMoves.foldl
      (fun (acc : ABLoopState) mv =>
        if acc.done then acc
        else
          let (result, sA) := recurse mv acc.alpha acc.beta (opponent colour) nb2 acc.s
          let (sB, fresh) := copy_board sA nb2
          let sC := { sB with bp := fresh }
          let sD := make_moveS mv colour sC
          let (alpha2, beta2) :=
            if colour = sD.myc then
              (if result > acc.alpha then result else acc.alpha, acc.beta)
            else
              (acc.alpha, if result < acc.beta then result else acc.beta)
          { alpha := alpha2, beta := beta2, s := sD,
            done := decide (alpha2 ≥ beta2) })
      { alpha := alpha, beta := beta, s := s3, done := false }
    (if colour = final.s.myc then final.alpha else final.beta, final.s)

/-- Function alpha_beta of the source, embedded as a state-passing function:
recursion on the depth argument, the depth-0 and depth > 0 bodies above. -/
def alphaBetaS : Nat → Int → Int → Int → Nat → Nat → MState → Int × MState
  | 0, _, _, _, _, sb, s => alphaBetaBase sb s
  | depth + 1, move_made, alpha, beta, colour, sb, s =>
      alphaBetaStep (alphaBetaS depth) move_made alpha beta colour sb s

/-- Function minimax of the source: derive the depth from the number of legal
moves of my_colour on the global board, then run alpha_beta with the bounds
-10000 and 10000. -/
def minimaxS (move : Int) (colour : Nat) (sb : Nat) (s : MState) : Int × MState :=
  let movesAvail := (legal_moves s.myc (deref s s.bp)).length
  let depth := dynamic_depth s.size movesAvail
  alphaBetaS depth move (-10000) 10000 colour sb s

/-- A board is well formed when every interior cell holds EMPTY, BLACK or
WHITE and every non-interior cell holds the OUTER sentinel (the Board
invariant of the data model). -/
def WellFormedBoard (b : Board) : Prop :=
  ∀ i : Fin 100,
    (validp (i : Int) = true → b i = EMPTY ∨ b i = BLACK ∨ b i = WHITE) ∧
    (validp (i : Int) = false → b i = OUTER)

/-- Concrete board used by several counterexamples: WHITE on 22, BLACK on 23,
32 and 33; BLACK has exactly the three legal moves 11, 12, 21, and after
BLACK plays 21 no WHITE piece is left, so WHITE has no reply. -/
def cexBoard : Board :=
  wr (wr (wr (wr baseBoard 22 WHITE) 23 BLACK) 32 BLACK) 33 BLACK

/-- Machine state with cexBoard as the only allocation, the global pointer on
it, my_colour BLACK and world size 1 (the serial configuration). -/
def cexState : MState :=
  { heap := [cexBoard], bp := 0, myc := BLACK, size := 1 }

/-- Board on which the two colours have different numbers of legal moves:
WHITE on 21, BLACK on 22 and 23.  BLACK has no legal move and WHITE has
exactly one (cell 24). -/
def mobBoard : Board :=
  wr (wr (wr baseBoard 21 WHITE) 22 BLACK) 23 BLACK

/-- Board with the corner 11 EMPTY and all three of its neighbours 12, 22, 21
held by BLACK (the configuration the corner-closeness heuristic is meant to
penalise). -/
def closeBoard : Board :=
  wr (wr (wr baseBoard 12 BLACK) 22 BLACK) 21 BLACK

instance (b : Board) : Decidable (WellFormedBoard b) := by
  unfold WellFormedBoard; infer_instance

lemma getD_append_lt {α : Type} (l l2 : List α) (i : Nat) (d : α) (h : i < l.length) :
    (l ++ l2).getD i d = l.getD i d := by
  induction l generalizing i with
  | nil => simp at h
  | cons x t ih =>
      cases i with
      | zero => rfl
      | succ j => simpa using ih j (by simpa using h)

lemma getD_append_self {α : Type} (l : List α) (x d : α) :
    (l ++ [x]).getD l.length d = x := by
  induction l with
  | nil => rfl
  | cons y t ih => exact ih

lemma getD_set_self {α : Type} (l : List α) (i : Nat) (x d : α) (h : i < l.length) :
    (l.set i x).getD i d = x := by
  induction l generalizing i with
  | nil => simp at h
  | cons y t ih =>
      cases i with
      | zero => rfl
      | succ j => simpa using ih j (by simpa using h)

lemma length_set_list {α : Type} (l : List α) (i : Nat) (x : α) :
    (l.set i x).length = l.length := by
  simp

/-- The mobility numerator of evaluate is identically zero: the source passes
player for both move counts. -/
lemma mobilityRawE_eq_zero (player : Nat) (b gb : Board) :
    mobilityRawE player b gb = 0 := by
  unfold mobilityRawE
  simp only [sub_self, mul_zero, Int.zero_tdiv]
  split <;> rfl

/-- The scaled mobility term of evaluate is identically zero. -/
lemma mobilityScaledE_eq_zero (player : Nat) (b : Board) (myc : Nat) (gb : Board) :
    mobilityScaledE player b myc gb = 0 := by
  unfold mobilityScaledE
  rw [mobilityRawE_eq_zero, mul_zero]

/-- C3 (code_bug).  The spec says the mobility term of evaluate is
100 * (playerMoves - oppMoves) / (playerMoves + oppMoves) with oppMoves the
opponent's legal-move count, nonzero on some board where the counts differ.
The source passes player to num_valid_moves for both counts (lines 947 and
951), so the numerator is identically zero: on mobBoard the two colours have
0 and 1 legal moves, yet the term is 0 (the claim's formula would give
100 * (0 - 1) / (0 + 1) = -100, scaled by (3 - game_stage()) = 2 to -200). -/
theorem C3_mobility_bug :
    num_valid_moves BLACK mobBoard mobBoard = 0 ∧
    num_valid_moves WHITE mobBoard mobBoard = 1 ∧
    game_stage BLACK mobBoard = 1 ∧
    mobilityScaledE BLACK mobBoard BLACK mobBoard = 0 ∧
    mobilityScaledE WHITE mobBoard BLACK mobBoard = 0 ∧
    (∀ (p : Nat) (b : Board) (myc : Nat) (gb : Board),
      mobilityScaledE p b myc gb = 0) :=
  ⟨by decide, by decide, by decide, by decide, by decide,
   fun p b myc gb => mobilityScaledE_eq_zero p b myc gb⟩

/-- C4 (code_bug).  The spec says the corner-closeness term counts the
neighbours of each EMPTY corner, nonzero on some board with an empty corner
whose neighbours are occupied.  The source guards each block with
board[corner] == a period character (code 46) instead of EMPTY (code 0)
(lines 1006, 1021, 1037, 1053), so the blocks never run on a real board:
on closeBoard the corner 11 is EMPTY and its three neighbours 12, 22, 21 are
BLACK, yet the term is 0 (the claim's count would be +3). -/
theorem C4_corner_closeness_bug :
    rd closeBoard 11 = EMPTY ∧
    rd closeBoard 12 = BLACK ∧ rd closeBoard 22 = BLACK ∧ rd closeBoard 21 = BLACK ∧
    ccPairE BLACK closeBoard = 0 ∧ ccE BLACK closeBoard = 0 ∧
    ccPairE WHITE closeBoard = 0 := by
  decide

/-- C5 counterexample.  The parity division of evaluate (line 969) has no
zero guard: on the all-EMPTY interior board both coin counts are zero, the
denominator pcoins + ocoins is 0 and the C division is undefined, so evaluate
is not total as the claim states (the guard of the source protects only the
mobility term). -/
theorem C5_cx_unguarded_parity :
    parityDenE BLACK baseBoard = 0 ∧ parityDenE WHITE baseBoard = 0 ∧
    count BLACK baseBoard = 0 ∧ count WHITE baseBoard = 0 ∧
    count EMPTY baseBoard = 64 := by
  decide

/-- The coin count pcoinsE of evaluate agrees with function count. -/
lemma pcoinsE_eq_count (player : Nat) (b : Board) :
    pcoinsE player b = count player b := rfl

/-- The else-if coin count ocoinsE of evaluate agrees with count of the
opponent, for a real player (BLACK or WHITE), whose opponent differs from
itself. -/
lemma ocoinsE_eq_count (player : Nat) (b : Board)
    (hp : player = BLACK ∨ player = WHITE) :
    ocoinsE player b = count (opponent player) b := by
  unfold ocoinsE count
  refine List.countP_congr ?_
  intro x _
  rcases hp with h | h <;> subst h <;>
    cases hb : (rd b x == opponent _) <;> simp_all [opponent, BLACK, WHITE]

/-- C5 (corrected).  Amended claim: when the coin total is positive the
parity term is exactly 100 * (playerCoins - oppCoins) / (playerCoins +
oppCoins) in C integer arithmetic (truncated division), the coin counts
agreeing with function count; the zero-denominator case is NOT guarded in
the source (see the counterexample theorem), so totality on the all-EMPTY
board fails. -/
theorem C5_parity_amended (player : Nat) (b : Board)
    (hp : player = BLACK ∨ player = WHITE)
    (hden : 0 < parityDenE player b) :
    parityE player b =
      Int.tdiv (100 * ((count player b : Int) - (count (opponent player) b : Int)))
        ((count player b : Int) + (count (opponent player) b : Int)) := by
  have h1 := pcoinsE_eq_count player b
  have h2 := ocoinsE_eq_count player b hp
  unfold parityE parityDenE
  rw [h1, h2]

/-- C5 witness: the amended parity statement at the initial position for
BLACK, every hypothesis discharged concretely. -/
theorem C5_parity_amended_witness :
    (0 : Int) < parityDenE BLACK initialBoard ∧
    parityE BLACK initialBoard =
      Int.tdiv (100 * ((count BLACK initialBoard : Int) -
          (count (opponent BLACK) initialBoard : Int)))
        ((count BLACK initialBoard : Int) + (count (opponent BLACK) initialBoard : Int)) :=
  ⟨by decide, C5_parity_amended BLACK initialBoard (Or.inl rfl) (by decide)⟩

/-- C10 (confirmed).  For every interior cell (validp, i.e. row and column
components in 1..8), get_loc inverts get_move_string; the first two produced
char codes are the ASCII digits of the 0-based row and column, the third is
the newline; and cell 11 maps to the digits of "00". -/
theorem C10_move_string_roundtrip (loc : Int) (h : validp loc = true) :
    get_loc (get_move_string loc) = loc ∧
    (get_move_string loc).getD 0 0 = (Int.tdiv loc 10 - 1) + 48 ∧
    (get_move_string loc).getD 1 0 = (Int.tmod loc 10 - 1) + 48 ∧
    (48 ≤ (get_move_string loc).getD 0 0 ∧ (get_move_string loc).getD 0 0 ≤ 55) ∧
    (48 ≤ (get_move_string loc).getD 1 0 ∧ (get_move_string loc).getD 1 0 ≤ 55) ∧
    (get_move_string loc).getD 2 0 = 10 ∧
    get_move_string 11 = [48, 48, 10, 0] := by
  simp only [validp, Bool.and_eq_true, decide_eq_true_eq] at h
  obtain ⟨⟨⟨h1, h2⟩, h3⟩, h4⟩ := h
  revert h3 h4
  interval_cases loc <;> decide

/-- C10 witness: the round trip at cell 34 and the "00" encoding of cell
11, hypotheses discharged concretely. -/
theorem C10_move_string_roundtrip_witness :
    validp 34 = true ∧ get_loc (get_move_string 34) = 34 ∧
    get_move_string 11 = [48, 48, 10, 0] :=
  ⟨by decide, (C10_move_string_roundtrip 34 (by decide)).1,
    (C10_move_string_roundtrip 34 (by decide)).2.2.2.2.2.2⟩

/-- C7 counterexample.  Both best-move loops start from best_score = -2000,
so when every recorded score is at most -2000 the recorded move with the
strictly greatest score is not selected: on the arrival sequence
[(31, -3000), (32, -2500)] the greatest score belongs to move 32, yet
gen_move_master keeps its initialiser rec_Moves[0] = 31 and serial keeps its
initialiser -100, which is not a move at all. -/
theorem C7_cx_sentinel_floor :
    masterSelect [((31 : Int), (-3000 : Int)), (32, -2500)] = 31 ∧
    serialSelect [((31 : Int), (-3000 : Int)), (32, -2500)] = -100 ∧
    ((-3000 : Int) < -2500) := by
  decide

lemma foldl_selectStep_of_le (recs : List (Int × Int)) (acc : Int × Int)
    (h : ∀ pr ∈ recs, pr.2 ≤ acc.2) :
    recs.foldl selectStep acc = acc := by
  induction recs with
  | nil => rfl
  | cons hd t ih =>
      have hhd : hd.2 ≤ acc.2 := h hd (List.mem_cons_self hd t)
      have hstep : selectStep acc hd = acc := by
        unfold selectStep
        rw [if_neg (not_lt.mpr hhd)]
      rw [List.foldl_cons, hstep]
      exact ih (fun pr hpr => h pr (List.mem_cons_of_mem hd hpr))

lemma foldl_selectStep_max (recs : List (Int × Int)) (s : Int)
    (hmem : s ∈ recs.map Prod.snd) (hmax : ∀ x ∈ recs.map Prod.snd, x ≤ s) :
    ∀ acc : Int × Int, acc.2 < s →
    ∃ pr, recs.find? (fun x => x.2 == s) = some pr ∧
      recs.foldl selectStep acc = (pr.1, s) := by
  induction recs with
  | nil => simp at hmem
  | cons hd t ih =>
      intro acc hacc
      by_cases hs : hd.2 = s
      · refine ⟨hd, ?_, ?_⟩
        · exact List.find?_cons_of_pos _ (by simp [hs])
        · have hstep : selectStep acc hd = (hd.1, s) := by
            unfold selectStep
            rw [if_pos (by rw [hs]; exact hacc), hs]
          rw [List.foldl_cons, hstep]
          refine foldl_selectStep_of_le t (hd.1, s) ?_
          intro pr hpr
          exact hmax pr.2 (by
            simp only [List.map_cons, List.mem_cons]
            exact Or.inr (List.mem_map_of_mem Prod.snd hpr))
      · simp only [List.map_cons, List.mem_cons] at hmem
        have hmem' : s ∈ t.map Prod.snd := by
          rcases hmem with h | h
          · exact absurd h.symm hs
          · exact h
        have hmax' : ∀ x ∈ t.map Prod.snd, x ≤ s := by
          intro x hx
          exact hmax x (by simp only [List.map_cons, List.mem_cons]; exact Or.inr hx)
        have hacc' : (selectStep acc hd).2 < s := by
          unfold selectStep
          split
          · exact lt_of_le_of_ne (hmax hd.2 (by simp)) hs
          · exact hacc
        rcases ih hmem' hmax' (selectStep acc hd) hacc' with ⟨pr, hf, hfold⟩
        refine ⟨pr, ?_, by rw [List.foldl_cons]; exact hfold⟩
        rw [List.find?_cons_of_neg _ (by simp [hs])]
        exact hf

/-- C7 (corrected).  Amended claim: whenever some recorded score is strictly
above the -2000 initialiser, both gen_move_master's selection loop and
serial's best-move loop return the first recorded move attaining the maximal
score (strictly-greater updates give the first-wins tie-break); when every
recorded score is at most -2000, gen_move_master returns the first recorded
move regardless of score and serial returns the -100 initialiser (see the
counterexample theorem). -/
theorem C7_selection_amended (recs : List (Int × Int)) (s : Int)
    (hmem : s ∈ recs.map Prod.snd) (hmax : ∀ x ∈ recs.map Prod.snd, x ≤ s)
    (hgt : -2000 < s) :
    ∃ pr, recs.find? (fun x => x.2 == s) = some pr ∧
      masterSelect recs = pr.1 ∧ serialSelect recs = pr.1 := by
  rcases foldl_selectStep_max recs s hmem hmax ((recs.headD (0, 0)).1, -2000) hgt with
    ⟨pr, hf, hfold⟩
  rcases foldl_selectStep_max recs s hmem hmax (-100, -2000) hgt with ⟨pr2, hf2, hfold2⟩
  rw [hf] at hf2
  refine ⟨pr, hf, ?_, ?_⟩
  · unfold masterSelect
    rw [hfold]
  · unfold serialSelect
    rw [hfold2, Option.some_inj.mp hf2]

/-- C7 witness: the amended selection statement on a concrete arrival
sequence with a tie at the maximal score 700; the first recorded maximal
move 32 is selected by both loops. -/
theorem C7_selection_amended_witness :
    ∃ pr, ([((31 : Int), (100 : Int)), (32, 700), (33, 700)].find?
        (fun x => x.2 == (700 : Int))) = some pr ∧
      masterSelect [((31 : Int), (100 : Int)), (32, 700), (33, 700)] = pr.1 ∧
      serialSelect [((31 : Int), (100 : Int)), (32, 700), (33, 700)] = pr.1 :=
  C7_selection_amended _ 700 (by decide) (by decide) (by decide)

/-- C2 counterexample.  At depth 0 alpha_beta evaluates the board it was
handed BEFORE applying move_made (the copy at line 821 is taken and evaluated
at line 825 before make_move runs at line 828): on cexState with the legal
root move 21 for BLACK the depth-0 call returns 545, the evaluation of the
unchanged board, while the claimed value - the evaluation after move 21 is
played - is 945. -/
theorem C2_cx_depth0_premove :
    (alphaBetaS 0 21 (-10000) 10000 BLACK 0 cexState).1 = 545 ∧
    evaluate BLACK cexBoard BLACK cexBoard = 545 ∧
    evaluate BLACK (make_move 21 BLACK cexBoard) BLACK cexBoard = 945 ∧
    legalp 21 BLACK cexBoard = true ∧ ((-10000 : Int) < 10000) := by
  decide

lemma alphaBetaS_zero (m a bt : Int) (c : Nat) (sb : Nat) (s : MState) :
    alphaBetaS 0 m a bt c sb s = alphaBetaBase sb s := rfl

lemma alphaBetaS_succ (d : Nat) (m a bt : Int) (c : Nat) (sb : Nat) (s : MState) :
    alphaBetaS (d + 1) m a bt c sb s = alphaBetaStep (alphaBetaS d) m a bt c sb s := rfl

/-- C2 (corrected).  Amended claim: at depth 0 alpha_beta returns exactly
evaluate(my_colour, b) where b is the board sent_board points to, WITHOUT
move_made applied (the root-player-perspective part of the claim is right,
but the board is evaluated before the move is played; make_move only runs on
the depth > 0 path, after the depth test).  The hypothesis keeps the global
board pointer live, as it is in every run of the source. -/
theorem C2_depth0_amended (s : MState) (move_made alpha beta : Int) (colour : Nat)
    (sb : Nat) (hbp : s.bp < s.heap.length) :
    (alphaBetaS 0 move_made alpha beta colour sb s).1 =
      evaluate s.myc (deref s sb) s.myc (deref s s.bp) := by
  rw [alphaBetaS_zero]
  unfold alphaBetaBase copy_board deref
  simp only []
  rw [getD_append_self, getD_append_lt _ _ _ _ hbp]

/-- C2 witness: the amended depth-0 statement at cexState with root move 21,
hypothesis discharged concretely. -/
theorem C2_depth0_amended_witness :
    cexState.bp < cexState.heap.length ∧
    (alphaBetaS 0 21 (-10000) 10000 BLACK 0 cexState).1 =
      evaluate cexState.myc (deref cexState 0) cexState.myc
        (deref cexState cexState.bp) :=
  ⟨by decide, C2_depth0_amended cexState 21 (-10000) 10000 BLACK 0 (by decide)⟩

/-- C1 counterexample.  A minimax invocation from a legal root move mutates
the coordinator's authoritative board: on cexState (global board cexBoard,
my_colour BLACK, size 1) the root move 21 is legal for BLACK, the derived
search depth is 6, and after minimax(21, BLACK, board) returns, the global
board holds BLACK at cell 22 where it held WHITE before (alpha_beta line 828
calls make_move, which writes through the global board pointer that the
root invocation aliases). -/
theorem C1_cx_board_mutated :
    rd (deref (minimaxS 21 BLACK 0 cexState).2 ((minimaxS 21 BLACK 0 cexState).2).bp) 22
      = BLACK ∧
    rd (deref cexState cexState.bp) 22 = WHITE ∧
    legalp 21 BLACK (deref cexState cexState.bp) = true ∧
    (legal_moves BLACK (deref cexState cexState.bp)).length = 3 := by
  decide

/-- C1 (corrected).  Amended claim: the authoritative board survives a search
invocation only when the derived depth is 0 (the depth-0 path allocates a
copy and evaluates, leaving the global allocation untouched); at any depth
greater than 0 an alpha_beta call whose sent_board is the global pointer (as
in every root invocation) applies move_made to the authoritative board in
place - in the no-reply case the global board afterwards is exactly
make_move(move_made, colour) of its old value, and in general it is further
corrupted by the reply loop. -/
theorem C1_frame_amended :
    (∀ (s : MState) (m a bt : Int) (c : Nat) (sb : Nat), s.bp < s.heap.length →
      deref (alphaBetaS 0 m a bt c sb s).2 ((alphaBetaS 0 m a bt c sb s).2).bp
        = deref s s.bp) ∧
    (∀ (s : MState) (d : Nat) (m a bt : Int) (c : Nat), s.bp < s.heap.length →
      legal_moves (opponent c) (make_move m c (deref s s.bp)) = [] →
      deref (alphaBetaS (d + 1) m a bt c s.bp s).2
          ((alphaBetaS (d + 1) m a bt c s.bp s).2).bp
        = make_move m c (deref s s.bp)) := by
  constructor
  · intro s m a bt c sb hbp
    rw [alphaBetaS_zero]
    unfold alphaBetaBase copy_board deref
    simp only []
    exact getD_append_lt _ _ _ _ hbp
  · intro s d m a bt c hbp hnr
    rw [alphaBetaS_succ]
    unfold alphaBetaStep copy_board make_moveS deref
    simp only []
    have h1 : (s.heap ++ [s.heap.getD s.bp (fun _ => OUTER)]).getD s.bp (fun _ => OUTER)
        = s.heap.getD s.bp (fun _ => OUTER) := getD_append_lt _ _ _ _ hbp
    rw [h1]
    have h2 : ((s.heap ++ [s.heap.getD s.bp (fun _ => OUTER)]).set s.bp
          (make_move m c (s.heap.getD s.bp (fun _ => OUTER)))).getD s.bp (fun _ => OUTER)
        = make_move m c (s.heap.getD s.bp (fun _ => OUTER)) :=
      getD_set_self _ _ _ _ (by simp; omega)
    rw [h2]
    have h3 : (((s.heap ++ [s.heap.getD s.bp (fun _ => OUTER)]).set s.bp
          (make_move m c (s.heap.getD s.bp (fun _ => OUTER)))) ++
            [make_move m c (s.heap.getD s.bp (fun _ => OUTER))]).getD s.bp (fun _ => OUTER)
        = make_move m c (s.heap.getD s.bp (fun _ => OUTER)) := by
      rw [getD_append_lt _ _ _ _ (by simp; omega)]
      exact h2
    rw [h3]
    unfold deref at hnr
    rw [if_pos hnr]
    exact h3

/-- C1 witness: both parts of the amended claim at cexState - the depth-0
call leaves the authoritative board untouched, and the depth-6 call on the
legal root move 21 (after which WHITE has no reply) turns it into exactly
make_move(21, BLACK) of its old value. -/
theorem C1_frame_amended_witness :
    (deref (alphaBetaS 0 21 (-10000) 10000 BLACK 0 cexState).2
        ((alphaBetaS 0 21 (-10000) 10000 BLACK 0 cexState).2).bp
      = deref cexState cexState.bp) ∧
    (deref (alphaBetaS (5 + 1) 21 (-10000) 10000 BLACK cexState.bp cexState).2
        ((alphaBetaS (5 + 1) 21 (-10000) 10000 BLACK cexState.bp cexState).2).bp
      = make_move 21 BLACK (deref cexState cexState.bp)) :=
  ⟨C1_frame_amended.1 cexState 21 (-10000) 10000 BLACK 0 (by decide),
   C1_frame_amended.2 cexState 5 21 (-10000) 10000 BLACK (by decide) (by decide)⟩

/-- Colour swap of a single cell value: BLACK and WHITE exchange, every other
value (EMPTY, OUTER) is fixed.  This is the label swap of the colour-symmetry
law of the spec. -/
def swapColour (v : Nat) : Nat :=
  if v = BLACK then WHITE else if v = WHITE then BLACK else v

/-- Cellwise colour swap of a board. -/
def swapBoard (b : Board) : Board :=
  fun i => swapColour (b i)

lemma rd_swapBoard (b : Board) (i : Int) :
    rd (swapBoard b) i = swapColour (rd b i) := by
  unfold rd swapBoard
  split <;> rfl

lemma opponent_opponent (p : Nat) (hp : p = BLACK ∨ p = WHITE) :
    opponent (opponent p) = p := by
  rcases hp with h | h <;> subst h <;> rfl

lemma swap_eq_opp_iff (p v : Nat) (hp : p = BLACK ∨ p = WHITE) :
    swapColour v = opponent p ↔ v = p := by
  rcases hp with h | h <;> subst h <;> unfold swapColour opponent BLACK WHITE EMPTY <;>
    split_ifs <;> omega

lemma swap_eq_self_iff (p v : Nat) (hp : p = BLACK ∨ p = WHITE) :
    swapColour v = p ↔ v = opponent p := by
  rcases hp with h | h <;> subst h <;> unfold swapColour opponent BLACK WHITE EMPTY <;>
    split_ifs <;> omega

lemma swap_beq_opp (p v : Nat) (hp : p = BLACK ∨ p = WHITE) :
    (swapColour v == opponent p) = (v == p) := by
  have h := swap_eq_opp_iff p v hp
  cases hv : (v == p) with
  | false => exact beq_eq_false_iff_ne.mpr (fun hc => (beq_eq_false_iff_ne.mp hv) (h.mp hc))
  | true => exact beq_iff_eq.mpr (h.mpr (beq_iff_eq.mp hv))

lemma swap_beq_self (p v : Nat) (hp : p = BLACK ∨ p = WHITE) :
    (swapColour v == p) = (v == opponent p) := by
  have h := swap_eq_self_iff p v hp
  cases hv : (v == opponent p) with
  | false => exact beq_eq_false_iff_ne.mpr (fun hc => (beq_eq_false_iff_ne.mp hv) (h.mp hc))
  | true => exact beq_iff_eq.mpr (h.mpr (beq_iff_eq.mp hv))

lemma swap_eq_dot (v : Nat) : (swapColour v = 46) ↔ (v = 46) := by
  unfold swapColour BLACK WHITE
  split_ifs <;> omega

lemma pcntE_swap (p : Nat) (b : Board) (hp : p = BLACK ∨ p = WHITE) :
    pcntE (opponent p) (swapBoard b) = pcntE p b := by
  unfold pcntE
  refine congrArg List.sum (List.map_congr_left ?_)
  intro i _
  rw [rd_swapBoard, swap_beq_opp p _ hp]

lemma ocntE_swap (p : Nat) (b : Board) (hp : p = BLACK ∨ p = WHITE) :
    ocntE (opponent p) (swapBoard b) = ocntE p b := by
  unfold ocntE
  refine congrArg List.sum (List.map_congr_left ?_)
  intro i _
  rw [rd_swapBoard, swap_beq_opp p _ hp, opponent_opponent p hp, swap_beq_self p _ hp]

lemma pcoinsE_swap (p : Nat) (b : Board) (hp : p = BLACK ∨ p = WHITE) :
    pcoinsE (opponent p) (swapBoard b) = pcoinsE p b := by
  unfold pcoinsE
  refine List.countP_congr ?_
  intro i _
  rw [rd_swapBoard, swap_beq_opp p _ hp]

lemma ocoinsE_swap (p : Nat) (b : Board) (hp : p = BLACK ∨ p = WHITE) :
    ocoinsE (opponent p) (swapBoard b) = ocoinsE p b := by
  unfold ocoinsE
  refine List.countP_congr ?_
  intro i _
  rw [rd_swapBoard, swap_beq_opp p _ hp, opponent_opponent p hp, swap_beq_self p _ hp]

lemma parityE_swap (p : Nat) (b : Board) (hp : p = BLACK ∨ p = WHITE) :
    parityE (opponent p) (swapBoard b) = parityE p b := by
  unfold parityE parityDenE
  rw [pcoinsE_swap p b hp, ocoinsE_swap p b hp]

lemma cornerP_swap (p : Nat) (b : Board) (hp : p = BLACK ∨ p = WHITE) :
    cornerP (opponent p) (swapBoard b) = cornerP p b := by
  unfold cornerP
  rw [rd_swapBoard, rd_swapBoard, rd_swapBoard, rd_swapBoard,
    swap_beq_opp p _ hp, swap_beq_opp p _ hp, swap_beq_opp p _ hp, swap_beq_opp p _ hp]

lemma cornerO_swap (p : Nat) (b : Board) (hp : p = BLACK ∨ p = WHITE) :
    cornerO (opponent p) (swapBoard b) = cornerO p b := by
  unfold cornerO
  simp only [rd_swapBoard, swap_beq_opp p _ hp, opponent_opponent p hp, swap_beq_self p _ hp]

lemma ccCorner_swap (p : Nat) (b : Board) (hp : p = BLACK ∨ p = WHITE)
    (corner n1 n2 n3 : Int) :
    ccCorner (opponent p) (swapBoard b) corner n1 n2 n3 =
      ccCorner p b corner n1 n2 n3 := by
  unfold ccCorner
  simp only [rd_swapBoard, swap_beq_opp p _ hp, opponent_opponent p hp, swap_beq_self p _ hp]
  by_cases hc : rd b corner = 46
  · rw [if_pos ((swap_eq_dot _).mpr hc), if_pos hc]
  · rw [if_neg (fun h => hc ((swap_eq_dot _).mp h)), if_neg hc]

lemma ccPairE_swap (p : Nat) (b : Board) (hp : p = BLACK ∨ p = WHITE) :
    ccPairE (opponent p) (swapBoard b) = ccPairE p b := by
  unfold ccPairE
  rw [ccCorner_swap p b hp, ccCorner_swap p b hp, ccCorner_swap p b hp, ccCorner_swap p b hp]

/-- C8 (confirmed).  Colour-symmetry law of the evaluator: swapping every
BLACK and WHITE label of the evaluated board and replacing the player by its
opponent leaves evaluate numerically unchanged, for any fixed global board
and my_colour (which evaluate reads only through the mobility term, itself
identically zero). -/
theorem C8_evaluate_colour_symmetry (p : Nat) (b : Board) (myc : Nat) (gb : Board)
    (hp : p = BLACK ∨ p = WHITE) :
    evaluate (opponent p) (swapBoard b) myc gb = evaluate p b myc gb := by
  unfold evaluate positionE cornerOccE ccE
  rw [pcntE_swap p b hp, ocntE_swap p b hp, cornerP_swap p b hp, cornerO_swap p b hp,
    ccPairE_swap p b hp, mobilityScaledE_eq_zero, mobilityScaledE_eq_zero,
    parityE_swap p b hp]

/-- C8 witness: the colour-symmetry law at the board cexBoard for BLACK and
fixed globals, hypothesis discharged concretely; both sides evaluate to the
same number. -/
theorem C8_evaluate_colour_symmetry_witness :
    evaluate (opponent BLACK) (swapBoard cexBoard) BLACK initialBoard =
      evaluate BLACK cexBoard BLACK initialBoard :=
  C8_evaluate_colour_symmetry BLACK cexBoard BLACK initialBoard (Or.inl rfl)

lemma opp_of_real (p : Nat) (hp : p = BLACK ∨ p = WHITE) :
    opponent p = BLACK ∨ opponent p = WHITE := by
  rcases hp with h | h <;> subst h <;> [right; left] <;> rfl

lemma rd_out_of_range (b : Board) (i : Int) (h : i < 0 ∨ 99 < i) : rd b i = OUTER := by
  unfold rd
  rw [dif_neg]
  omega

lemma outer_ne_real (q : Nat) (hq : q = BLACK ∨ q = WHITE) : OUTER ≠ q := by
  rcases hq with h | h <;> subst h <;> decide

lemma validp_bounds (i : Int) (h : validp i = true) :
    11 ≤ i ∧ i ≤ 88 := by
  simp only [validp, Bool.and_eq_true, decide_eq_true_eq] at h
  exact ⟨h.1.1.1, h.1.1.2⟩

/-- On a well-formed board a cell holding a real colour (in particular the
opponent's colour) is an interior cell, hence in 0..99. -/
lemma wf_real_cell_interior (b : Board) (hwf : WellFormedBoard b) (i : Int) (q : Nat)
    (hq : q = BLACK ∨ q = WHITE) (h : rd b i = q) :
    validp i = true ∧ 0 ≤ i ∧ i ≤ 99 := by
  unfold rd at h
  by_cases hr : 0 ≤ i ∧ i < 100
  · rw [dif_pos hr] at h
    have hcast : (((⟨i.toNat, by omega⟩ : Fin 100) : Nat) : Int) = i := by
      simp [Int.toNat_of_nonneg hr.1]
    by_cases hv : validp i = true
    · exact ⟨hv, hr.1, by omega⟩
    · have h2 := (hwf ⟨i.toNat, by omega⟩).2 (by rw [hcast]; exact Bool.not_eq_true _ ▸ (by simpa using hv))
      rw [h2] at h
      exact absurd h (outer_ne_real q hq)
  · rw [dif_neg hr] at h
    exact absurd h (outer_ne_real q hq)

lemma dir_cases (d : Int) (hd : d ∈ ALLDIRECTIONS) :
    d = -11 ∨ d = -10 ∨ d = -9 ∨ d = -1 ∨ d = 1 ∨ d = 9 ∨ d = 10 ∨ d = 11 := by
  simpa [ALLDIRECTIONS] using hd

/-- Stepping once along any ray direction from an interior cell stays inside
the allocated indices 0..99. -/
lemma interior_step (i d : Int) (hi : validp i = true) (hd : d ∈ ALLDIRECTIONS) :
    0 ≤ i + d ∧ i + d ≤ 99 := by
  have hb := validp_bounds i hi
  rcases dir_cases d hd with h | h | h | h | h | h | h | h <;> subst h <;> omega

/-- After 121 steps along any ray direction from an interior cell the index
is outside 0..99, so the cell read there is the OUTER default. -/
lemma far_out_of_range (m d : Int) (hm : validp m = true) (hd : d ∈ ALLDIRECTIONS)
    (k : Int) (hk : 119 ≤ k) (hk2 : k ≤ 125) :
    m + (k + 2) * d < 0 ∨ 99 < m + (k + 2) * d := by
  have hb := validp_bounds m hm
  rcases dir_cases d hd with h | h | h | h | h | h | h | h <;> subst h <;> omega

/-- Fuel indifference of the bracket scan: as soon as some offset j below
both fuels reaches a cell not holding the opponent's colour, the scan result
does not depend on the fuel. -/
lemma findBracketFuel_congr (d : Int) (p : Nat) (b : Board) :
    ∀ (j : Nat) (sq : Int), rd b (sq + (j : Int) * d) ≠ opponent p →
      ∀ (f g : Nat), j < f → j < g →
        findBracketFuel f sq d p b = findBracketFuel g sq d p b := by
  intro j
  induction j with
  | zero =>
      intro sq hstop f g hf hg
      cases f with
      | zero => omega
      | succ f2 =>
          cases g with
          | zero => omega
          | succ g2 =>
              have hstop2 : rd b sq ≠ opponent p := by
                have harith : sq + ((0 : Nat) : Int) * d = sq := by push_cast; ring
                rwa [harith] at hstop
              simp [findBracketFuel, if_neg hstop2]
  | succ j ih =>
      intro sq hstop f g hf hg
      cases f with
      | zero => omega
      | succ f2 =>
          cases g with
          | zero => omega
          | succ g2 =>
              by_cases hsq : rd b sq = opponent p
              · have hstop2 : rd b (sq + d + (j : Int) * d) ≠ opponent p := by
                  have harith : sq + d + (j : Int) * d = sq + ((j + 1 : Nat) : Int) * d := by
                    push_cast; ring
                  rwa [harith]
                simp only [findBracketFuel, if_pos hsq]
                exact ih (sq + d) hstop2 f2 g2 (by omega) (by omega)
              · simp [findBracketFuel, if_neg hsq]

/-- C9 (confirmed).  On a well-formed board (every non-interior cell OUTER)
and for a real player, the directional scan of would_flip and
find_bracket_piece from any interior move cell reaches a cell not holding
the opponent's colour after at most 121 reads, every read lying inside
indices 0..99; consequently the scan result is independent of any fuel of at
least 200, which justifies the fuel-200 embedding of find_bracket_piece. -/
theorem C9_scan_termination (b : Board) (p : Nat) (m d : Int)
    (hwf : WellFormedBoard b) (hp : p = BLACK ∨ p = WHITE)
    (hm : validp m = true) (hd : d ∈ ALLDIRECTIONS) :
    ∃ n : Nat, n ≤ 120 ∧
      (∀ k : Nat, k < n → rd b (m + ((k : Int) + 1) * d) = opponent p) ∧
      rd b (m + ((n : Int) + 1) * d) ≠ opponent p ∧
      (∀ k : Nat, k ≤ n → 0 ≤ m + ((k : Int) + 1) * d ∧ m + ((k : Int) + 1) * d ≤ 99) ∧
      (∀ f : Nat, 200 ≤ f →
        findBracketFuel f (m + d + d) d p b = find_bracket_piece (m + d + d) d p b) := by
  have hoppreal := opp_of_real p hp
  have hP120 : rd b (m + ((120 : Nat) + 1 : Int) * d) ≠ opponent p := by
    have hfar : m + (119 + 2) * d < 0 ∨ 99 < m + (119 + 2) * d :=
      far_out_of_range m d hm hd 119 (by omega) (by omega)
    have harith : m + ((120 : Nat) + 1 : Int) * d = m + (119 + 2) * d := by push_cast; ring
    rw [harith, rd_out_of_range b _ hfar]
    exact outer_ne_real _ hoppreal
  have hex : ∃ k : Nat, rd b (m + ((k : Int) + 1) * d) ≠ opponent p := ⟨120, hP120⟩
  refine ⟨Nat.find hex, Nat.find_le hP120, ?_, Nat.find_spec hex, ?_, ?_⟩
  · intro k hk
    have := Nat.find_min hex hk
    exact not_not.mp this
  · intro k hk
    cases k with
    | zero =>
        have hstep := interior_step m d hm hd
        have harith : m + ((0 : Nat) + 1 : Int) * d = m + d := by push_cast; ring
        rw [harith]
        exact hstep
    | succ j =>
        have hj : j < Nat.find hex := by omega
        have hjopp : rd b (m + ((j : Int) + 1) * d) = opponent p :=
          not_not.mp (Nat.find_min hex hj)
        have hint := wf_real_cell_interior b hwf (m + ((j : Int) + 1) * d) (opponent p)
          hoppreal hjopp
        have hstep := interior_step (m + ((j : Int) + 1) * d) d hint.1 hd
        have harith : m + ((j + 1 : Nat) + 1 : Int) * d = m + ((j : Int) + 1) * d + d := by
          push_cast; ring
        rw [harith]
        exact hstep
  · intro f hf
    have hstop : rd b ((m + d + d) + ((119 : Nat) : Int) * d) ≠ opponent p := by
      have hfar : m + (119 + 2) * d < 0 ∨ 99 < m + (119 + 2) * d :=
        far_out_of_range m d hm hd 119 (by omega) (by omega)
      have harith : (m + d + d) + ((119 : Nat) : Int) * d = m + (119 + 2) * d := by
        push_cast; ring
      rw [harith, rd_out_of_range b _ hfar]
      exact outer_ne_real _ hoppreal
    unfold find_bracket_piece
    exact findBracketFuel_congr d p b 119 (m + d + d) hstop f 200 (by omega) (by omega)

/-- C9 witness: the scan statement at the initial position for BLACK, move
34, direction 10 (the scan passes the WHITE piece at 44 and stops on the
BLACK piece at 54), hypotheses discharged concretely. -/
theorem C9_scan_termination_witness :
    WellFormedBoard initialBoard ∧
    (∃ n : Nat, n ≤ 120 ∧
      (∀ k : Nat, k < n → rd initialBoard (34 + ((k : Int) + 1) * 10) = opponent BLACK) ∧
      rd initialBoard (34 + ((n : Int) + 1) * 10) ≠ opponent BLACK ∧
      (∀ k : Nat, k ≤ n →
        0 ≤ 34 + ((k : Int) + 1) * 10 ∧ 34 + ((k : Int) + 1) * 10 ≤ 99) ∧
      (∀ f : Nat, 200 ≤ f →
        findBracketFuel f (34 + 10 + 10) 10 BLACK initialBoard =
          find_bracket_piece (34 + 10 + 10) 10 BLACK initialBoard)) :=
  ⟨by decide,
   C9_scan_termination initialBoard BLACK 34 10 (by decide) (Or.inl rfl)
     (by decide) (by decide)⟩

lemma rd_wr_ne (b : Board) (j : Int) (v : Nat) (i : Int) (h : i ≠ j) :
    rd (wr b j v) i = rd b i := by
  unfold rd wr
  by_cases hr : 0 ≤ i ∧ i < 100
  · rw [dif_pos hr, dif_pos hr]
    rw [if_neg]
    intro hc
    exact h (by rw [← hc]; simp [Int.toNat_of_nonneg hr.1])
  · rw [dif_neg hr, dif_neg hr]

lemma rd_wr_eq (b : Board) (j : Int) (v : Nat) (h0 : 0 ≤ j) (h99 : j ≤ 99) :
    rd (wr b j v) j = v := by
  unfold rd wr
  rw [dif_pos ⟨h0, by omega⟩]
  rw [if_pos]
  simp [Int.toNat_of_nonneg h0]

lemma validp_in_range (j : Int) (h : validp j = true) : 0 ≤ j ∧ j ≤ 99 := by
  have := validp_bounds j h
  omega

lemma wf_wr (b : Board) (hwf : WellFormedBoard b) (j : Int) (v : Nat)
    (hj : validp j = true) (hv : v = BLACK ∨ v = WHITE) :
    WellFormedBoard (wr b j v) := by
  intro i
  unfold wr
  by_cases hij : ((i : Fin 100) : Int) = j
  · constructor
    · intro _
      rw [if_pos hij]
      rcases hv with h | h <;> subst h <;> [right; right] <;> [left; right] <;> rfl
    · intro hvi
      rw [hij] at hvi
      rw [hj] at hvi
      cases hvi
  · rw [if_neg hij]
    exact hwf i

/-- The flip loop of make_flips as a board transformer: write player at t
consecutive ray cells starting at c. -/
def writeRun (d : Int) (p : Nat) : Nat → Int → Board → Board
  | 0, _, b => b
  | t + 1, c, b => writeRun d p t (c + d) (wr b c p)

lemma flipLoopFuel_eq_writeRun (d : Int) (p : Nat) (hd : d ≠ 0) :
    ∀ (t f : Nat) (c : Int) (b : Board), 1 ≤ t → t < f →
      flipLoopFuel f c d (c + (t : Int) * d) p b = writeRun d p t c b := by
  intro t
  induction t with
  | zero => omega
  | succ t2 ih =>
      intro f c b h1 hf
      cases f with
      | zero => omega
      | succ f2 =>
          cases t2 with
          | zero =>
              simp only [flipLoopFuel, writeRun]
              rw [if_pos (by push_cast; ring)]
          | succ t3 =>
              simp only [flipLoopFuel, writeRun]
              rw [if_neg (by
                intro hc
                have : ((t3 : Int) + 1) * d = 0 := by push_cast at hc ⊢; linarith
                rcases mul_eq_zero.mp this with h | h
                · omega
                · exact hd h)]
              rw [show c + ((t3 + 1 + 1 : Nat) : Int) * d
                  = (c + d) + ((t3 + 1 : Nat) : Int) * d by push_cast; ring]
              exact ih f2 (c + d) (wr b c p) (by omega) (by omega)

lemma writeRun_rd_off (d : Int) (p : Nat) :
    ∀ (t : Nat) (c : Int) (b : Board) (i : Int),
      (∀ k : Nat, k < t → i ≠ c + (k : Int) * d) →
      rd (writeRun d p t c b) i = rd b i := by
  intro t
  induction t with
  | zero => intro c b i _; rfl
  | succ t2 ih =>
      intro c b i hoff
      have h0 : i ≠ c := by
        have := hoff 0 (by omega)
        simpa using this
      rw [show writeRun d p (t2 + 1) c b = writeRun d p t2 (c + d) (wr b c p) from rfl]
      rw [ih (c + d) (wr b c p) i (by
        intro k hk
        have := hoff (k + 1) (by omega)
        intro hc
        apply this
        rw [hc]
        push_cast
        ring)]
      exact rd_wr_ne b c p i h0

lemma writeRun_rel (d : Int) (p : Nat) :
    ∀ (t : Nat) (c : Int) (b : Board) (i : Int),
      rd (writeRun d p t c b) i = rd b i ∨ rd (writeRun d p t c b) i = p := by
  intro t
  induction t with
  | zero => intro c b i; exact Or.inl rfl
  | succ t2 ih =>
      intro c b i
      rw [show writeRun d p (t2 + 1) c b = writeRun d p t2 (c + d) (wr b c p) from rfl]
      rcases ih (c + d) (wr b c p) i with h | h
      · rw [h]
        by_cases hic : i = c
        · subst hic
          by_cases hr : 0 ≤ i ∧ i ≤ 99
          · exact Or.inr (rd_wr_eq b i p hr.1 hr.2)
          · left
            unfold rd wr
            rw [dif_neg (by omega), dif_neg (by omega)]
        · exact Or.inl (rd_wr_ne b c p i hic)
      · exact Or.inr h

lemma writeRun_keeps (d : Int) (p : Nat) (t : Nat) (c : Int) (b : Board) (i : Int)
    (h : rd b i = p) : rd (writeRun d p t c b) i = p := by
  rcases writeRun_rel d p t c b i with h2 | h2
  · rw [h2, h]
  · exact h2

lemma writeRun_wf (d : Int) (p : Nat) (hp : p = BLACK ∨ p = WHITE) :
    ∀ (t : Nat) (c : Int) (b : Board), WellFormedBoard b →
      (∀ k : Nat, k < t → validp (c + (k : Int) * d) = true) →
      WellFormedBoard (writeRun d p t c b) := by
  intro t
  induction t with
  | zero => intro c b hwf _; exact hwf
  | succ t2 ih =>
      intro c b hwf hvalid
      rw [show writeRun d p (t2 + 1) c b = writeRun d p t2 (c + d) (wr b c p) from rfl]
      refine ih (c + d) (wr b c p) (wf_wr b hwf c p ?_ hp) ?_
      · have := hvalid 0 (by omega)
        simpa using this
      · intro k hk
        have := hvalid (k + 1) (by omega)
        have harith : c + ((k + 1 : Nat) : Int) * d = c + d + (k : Int) * d := by
          push_cast; ring
        rwa [harith] at this

lemma writeRun_first (d : Int) (p : Nat) (t : Nat) (c : Int) (b : Board)
    (ht : 1 ≤ t) (h0 : 0 ≤ c) (h99 : c ≤ 99) :
    rd (writeRun d p t c b) c = p := by
  cases t with
  | zero => omega
  | succ t2 =>
      rw [show writeRun d p (t2 + 1) c b = writeRun d p t2 (c + d) (wr b c p) from rfl]
      exact writeRun_keeps d p t2 (c + d) (wr b c p) c (rd_wr_eq b c p h0 h99)

/-- Run characterization of the bracket scan: if the first j cells from sq
hold the opponent's colour and the next one does not, the scan stops there
and returns it exactly when it holds the player's colour. -/
lemma findBracketFuel_run (d : Int) (p : Nat) (b : Board) :
    ∀ (j : Nat) (sq : Int) (f : Nat), j < f →
      (∀ k : Nat, k < j → rd b (sq + (k : Int) * d) = opponent p) →
      rd b (sq + (j : Int) * d) ≠ opponent p →
      findBracketFuel f sq d p b =
        (if rd b (sq + (j : Int) * d) = p then sq + (j : Int) * d else 0) := by
  intro j
  induction j with
  | zero =>
      intro sq f hf _ hstop
      cases f with
      | zero => omega
      | succ f2 =>
          have harith : sq + ((0 : Nat) : Int) * d = sq := by push_cast; ring
          rw [harith] at hstop ⊢
          simp [findBracketFuel, if_neg hstop]
  | succ j2 ih =>
      intro sq f hf hopp hstop
      cases f with
      | zero => omega
      | succ f2 =>
          have h0 : rd b sq = opponent p := by
            have := hopp 0 (by omega)
            rwa [show sq + ((0 : Nat) : Int) * d = sq by push_cast; ring] at this
          have harith : ∀ k : Nat, (sq + d) + (k : Int) * d = sq + ((k + 1 : Nat) : Int) * d := by
            intro k; push_cast; ring
          simp only [findBracketFuel, if_pos h0]
          rw [ih (sq + d) f2 (by omega)
            (fun k hk => by rw [harith k]; exact hopp (k + 1) (by omega))
            (by rw [harith j2]; exact hstop)]
          rw [harith j2]

/-- Bracket characterization of would_flip on a well-formed board: the result
is 0, or it is the bracketing square m + s*d with an unbroken run of
opponent pieces strictly between m and the bracket, the bracket holding the
player's colour on an interior cell (hence the result is nonzero). -/
lemma wouldFlip_spec (b : Board) (p : Nat) (m d : Int)
    (hwf : WellFormedBoard b) (hp : p = BLACK ∨ p = WHITE)
    (hm : validp m = true) (hd : d ∈ ALLDIRECTIONS) :
    would_flip m d p b = 0 ∨
      ∃ s : Nat, 2 ≤ s ∧ s ≤ 121 ∧ would_flip m d p b = m + (s : Int) * d ∧
        (∀ k : Nat, 1 ≤ k → k < s → rd b (m + (k : Int) * d) = opponent p) ∧
        rd b (m + (s : Int) * d) = p ∧ validp (m + (s : Int) * d) = true := by
  by_cases hg : rd b (m + d) = opponent p
  · rcases C9_scan_termination b p m d hwf hp hm hd with ⟨n, hn120, hrun, hstop, _, _⟩
    have hn1 : 1 ≤ n := by
      rcases Nat.eq_zero_or_pos n with h | h
      · exfalso
        apply hstop
        subst h
        simpa using hg
      · exact h
    have hcast : ((n - 1 : Nat) : Int) = (n : Int) - 1 := by omega
    have hrun2 : ∀ k : Nat, k < n - 1 → rd b ((m + d + d) + (k : Int) * d) = opponent p := by
      intro k hk
      have := hrun (k + 1) (by omega)
      rwa [show m + (((k + 1 : Nat) : Int) + 1) * d = (m + d + d) + (k : Int) * d by
        push_cast; ring] at this
    have hstop2 : rd b ((m + d + d) + ((n - 1 : Nat) : Int) * d) ≠ opponent p := by
      rwa [show (m + d + d) + ((n - 1 : Nat) : Int) * d = m + ((n : Int) + 1) * d by
        rw [hcast]; ring]
    have hfb : find_bracket_piece (m + d + d) d p b =
        (if rd b ((m + d + d) + ((n - 1 : Nat) : Int) * d) = p
         then (m + d + d) + ((n - 1 : Nat) : Int) * d else 0) := by
      unfold find_bracket_piece
      exact findBracketFuel_run d p b (n - 1) (m + d + d) 200 (by omega) hrun2 hstop2
    have harith2 : (m + d + d) + ((n - 1 : Nat) : Int) * d = m + ((n + 1 : Nat) : Int) * d := by
      rw [hcast]; push_cast; ring
    unfold would_flip
    rw [if_pos hg, hfb, harith2]
    by_cases hbr : rd b (m + ((n + 1 : Nat) : Int) * d) = p
    · right
      refine ⟨n + 1, by omega, by omega, by rw [if_pos hbr], ?_, hbr,
        (wf_real_cell_interior b hwf _ p hp hbr).1⟩
      intro k hk1 hks
      have := hrun (k - 1) (by omega)
      rwa [show m + (((k - 1 : Nat) : Int) + 1) * d = m + (k : Int) * d by
        have : ((k - 1 : Nat) : Int) = (k : Int) - 1 := by omega
        rw [this]; ring] at this
    · left
      rw [if_neg hbr]
  · left
    unfold would_flip
    rw [if_neg hg]

lemma opp_ne_self (p : Nat) (hp : p = BLACK ∨ p = WHITE) : opponent p ≠ p := by
  rcases hp with h | h <;> subst h <;> decide

lemma dir_ne_zero (d : Int) (hd : d ∈ ALLDIRECTIONS) : d ≠ 0 := by
  rcases dir_cases d hd with h | h | h | h | h | h | h | h <;> subst h <;> decide

lemma make_flips_id (m d : Int) (p : Nat) (b : Board)
    (h : would_flip m d p b = 0) : make_flips m d p b = b := by
  unfold make_flips
  rw [h]
  simp

/-- On a well-formed board every make_flips call either leaves the board
unchanged or rewrites exactly the bracketed opponent run to the player's
colour. -/
lemma make_flips_spec (b : Board) (p : Nat) (m d : Int)
    (hwf : WellFormedBoard b) (hp : p = BLACK ∨ p = WHITE)
    (hm : validp m = true) (hd : d ∈ ALLDIRECTIONS) :
    (would_flip m d p b = 0 ∧ make_flips m d p b = b) ∨
      ∃ s : Nat, 2 ≤ s ∧ s ≤ 121 ∧
        make_flips m d p b = writeRun d p (s - 1) (m + d) b ∧
        (∀ k : Nat, 1 ≤ k → k < s → rd b (m + (k : Int) * d) = opponent p ∧
          validp (m + (k : Int) * d) = true) := by
  rcases wouldFlip_spec b p m d hwf hp hm hd with h0 | ⟨s, hs2, hs121, heq, hrun, _, hbrv⟩
  · exact Or.inl ⟨h0, make_flips_id m d p b h0⟩
  · right
    refine ⟨s, hs2, hs121, ?_, ?_⟩
    · unfold make_flips
      rw [heq]
      have hbrpos := validp_bounds _ hbrv
      rw [if_pos (by omega)]
      have harith : m + (s : Int) * d = (m + d) + ((s - 1 : Nat) : Int) * d := by
        have : ((s - 1 : Nat) : Int) = (s : Int) - 1 := by omega
        rw [this]; ring
      rw [harith]
      exact flipLoopFuel_eq_writeRun d p (dir_ne_zero d hd) (s - 1) 200 (m + d) b
        (by omega) (by omega)
    · intro k hk1 hks
      have ho := hrun k hk1 hks
      exact ⟨ho, (wf_real_cell_interior b hwf _ _ (opp_of_real p hp) ho).1⟩

/-- Pointwise effect of one make_flips call: a cell keeps its value or is
turned to the player's colour, in which case it held the opponent's colour
and is not the move cell. -/
lemma make_flips_rel (b : Board) (p : Nat) (m d : Int)
    (hwf : WellFormedBoard b) (hp : p = BLACK ∨ p = WHITE)
    (hm : validp m = true) (hd : d ∈ ALLDIRECTIONS) (i : Int) :
    rd (make_flips m d p b) i = rd b i ∨
      (rd (make_flips m d p b) i = p ∧ rd b i = opponent p ∧ i ≠ m) := by
  rcases make_flips_spec b p m d hwf hp hm hd with h | ⟨s, hs2, _, heq, hrun⟩
  · rw [h.2]; exact Or.inl rfl
  · rw [heq]
    rcases writeRun_rel d p (s - 1) (m + d) b i with h2 | h2
    · exact Or.inl h2
    · by_cases hbi : rd b i = p
      · exact Or.inl (by rw [h2, hbi])
      · have hchg : ¬ (∀ k : Nat, k < s - 1 → i ≠ (m + d) + (k : Int) * d) := by
          intro hoff
          exact hbi (by rw [← writeRun_rd_off d p (s - 1) (m + d) b i hoff, h2])
        push_neg at hchg
        rcases hchg with ⟨k, hk, hik⟩
        have hik2 : i = m + ((k + 1 : Nat) : Int) * d := by rw [hik]; push_cast; ring
        have hrunk := hrun (k + 1) (by omega) (by omega)
        refine Or.inr ⟨h2, by rw [hik2]; exact hrunk.1, ?_⟩
        rw [hik2]
        intro hc
        have hzero : ((k + 1 : Nat) : Int) * d = 0 := by omega
        rcases mul_eq_zero.mp hzero with h3 | h3
        · omega
        · exact dir_ne_zero d hd h3

/-- One make_flips call preserves well-formedness. -/
lemma make_flips_wf (b : Board) (p : Nat) (m d : Int)
    (hwf : WellFormedBoard b) (hp : p = BLACK ∨ p = WHITE)
    (hm : validp m = true) (hd : d ∈ ALLDIRECTIONS) :
    WellFormedBoard (make_flips m d p b) := by
  rcases make_flips_spec b p m d hwf hp hm hd with h | ⟨s, hs2, _, heq, hrun⟩
  · rw [h.2]; exact hwf
  · rw [heq]
    refine writeRun_wf d p hp (s - 1) (m + d) b hwf ?_
    intro k hk
    have := (hrun (k + 1) (by omega) (by omega)).2
    rwa [show m + ((k + 1 : Nat) : Int) * d = (m + d) + (k : Int) * d by push_cast; ring]
      at this

/-- One make_flips call never erases the player's colour. -/
lemma make_flips_keeps (b : Board) (p : Nat) (m d : Int)
    (hwf : WellFormedBoard b) (hp : p = BLACK ∨ p = WHITE)
    (hm : validp m = true) (hd : d ∈ ALLDIRECTIONS) (i : Int) (h : rd b i = p) :
    rd (make_flips m d p b) i = p := by
  rcases make_flips_rel b p m d hwf hp hm hd i with h2 | h2
  · rw [h2, h]
  · exact h2.1

/-- When would_flip fires, make_flips turns the first run cell m + d (which
held the opponent's colour) into the player's colour. -/
lemma make_flips_guard (b : Board) (p : Nat) (m d : Int)
    (hwf : WellFormedBoard b) (hp : p = BLACK ∨ p = WHITE)
    (hm : validp m = true) (hd : d ∈ ALLDIRECTIONS)
    (h : would_flip m d p b ≠ 0) :
    rd b (m + d) = opponent p ∧ rd (make_flips m d p b) (m + d) = p := by
  rcases make_flips_spec b p m d hwf hp hm hd with hid | ⟨s, hs2, _, heq, hrun⟩
  · exact absurd hid.1 h
  · have hg := hrun 1 (by omega) (by omega)
    have hgr := validp_in_range _ hg.2
    rw [show m + ((1 : Nat) : Int) * d = m + d by push_cast; ring] at hg hgr
    refine ⟨hg.1, ?_⟩
    rw [heq]
    exact writeRun_first d p (s - 1) (m + d) b (by omega) hgr.1 hgr.2

/-- The bracket scan reads the same cells on two boards that agree along the
ray, so its result agrees as well. -/
lemma findBracketFuel_congr_rd (d : Int) (p : Nat) (b1 b2 : Board) :
    ∀ (f : Nat) (sq : Int),
      (∀ j : Nat, j < f → rd b1 (sq + (j : Int) * d) = rd b2 (sq + (j : Int) * d)) →
      findBracketFuel f sq d p b1 = findBracketFuel f sq d p b2 := by
  intro f
  induction f with
  | zero => intro sq _; rfl
  | succ f2 ih =>
      intro sq hagree
      have h0 : rd b1 sq = rd b2 sq := by
        have := hagree 0 (by omega)
        rwa [show sq + ((0 : Nat) : Int) * d = sq by push_cast; ring] at this
      simp only [findBracketFuel]
      rw [h0]
      by_cases hsq : rd b2 sq = opponent p
      · rw [if_pos hsq, if_pos hsq]
        refine ih (sq + d) ?_
        intro j hj
        have := hagree (j + 1) (by omega)
        rwa [show sq + ((j + 1 : Nat) : Int) * d = (sq + d) + (j : Int) * d by
          push_cast; ring] at this
      · rw [if_neg hsq, if_neg hsq]

/-- would_flip never reads the move cell itself, so writing the move cell
first (as make_move does) leaves every would_flip result unchanged. -/
lemma wouldFlip_wr_m (b : Board) (p q : Nat) (m d : Int) (hd : d ∈ ALLDIRECTIONS) :
    would_flip m d p (wr b m q) = would_flip m d p b := by
  have hdz := dir_ne_zero d hd
  unfold would_flip
  have hg : rd (wr b m q) (m + d) = rd b (m + d) :=
    rd_wr_ne b m q (m + d) (by intro hc; omega)
  rw [hg]
  by_cases hsq : rd b (m + d) = opponent p
  · rw [if_pos hsq, if_pos hsq]
    unfold find_bracket_piece
    refine findBracketFuel_congr_rd d p (wr b m q) b 200 (m + d + d) ?_
    intro j _
    refine rd_wr_ne b m q _ ?_
    intro hc
    have : ((j : Int) + 2) * d = 0 := by linarith [hc]
    rcases mul_eq_zero.mp this with h3 | h3
    · omega
    · exact hdz h3
  · rw [if_neg hsq, if_neg hsq]

/-- Combined invariant of the direction fold of make_move, relative to the
board c it starts from: well-formedness, the pointwise only-to-player
change relation avoiding the move cell, and preservation of the player's
cells. -/
lemma fold_flips_master (p : Nat) (m : Int) (hp : p = BLACK ∨ p = WHITE)
    (hm : validp m = true) :
    ∀ (L : List Int) (c : Board), (∀ d ∈ L, d ∈ ALLDIRECTIONS) → WellFormedBoard c →
      WellFormedBoard (L.foldl (fun bb dir => make_flips m dir p bb) c) ∧
      (∀ i : Int, rd (L.foldl (fun bb dir => make_flips m dir p bb) c) i = rd c i ∨
        (rd (L.foldl (fun bb dir => make_flips m dir p bb) c) i = p ∧
          rd c i = opponent p ∧ i ≠ m)) ∧
      (∀ i : Int, rd c i = p →
        rd (L.foldl (fun bb dir => make_flips m dir p bb) c) i = p) := by
  intro L
  induction L with
  | nil => exact fun c _ hwf => ⟨hwf, fun i => Or.inl rfl, fun i h => h⟩
  | cons d L2 ih =>
      intro c hdirs hwf
      have hd : d ∈ ALLDIRECTIONS := hdirs d (List.mem_cons_self d L2)
      have hdirs2 : ∀ d2 ∈ L2, d2 ∈ ALLDIRECTIONS :=
        fun d2 h2 => hdirs d2 (List.mem_cons_of_mem d h2)
      have hwf1 : WellFormedBoard (make_flips m d p c) :=
        make_flips_wf c p m d hwf hp hm hd
      rcases ih (make_flips m d p c) hdirs2 hwf1 with ⟨hwfF, hrelF, hkeepF⟩
      rw [List.foldl_cons] at *
      refine ⟨hwfF, ?_, ?_⟩
      · intro i
        rcases hrelF i with h2 | h2
        · rcases make_flips_rel c p m d hwf hp hm hd i with h1 | h1
          · exact Or.inl (by rw [h2, h1])
          · exact Or.inr ⟨by rw [h2, h1.1], h1.2.1, h1.2.2⟩
        · rcases make_flips_rel c p m d hwf hp hm hd i with h1 | h1
          · exact Or.inr ⟨h2.1, by rw [← h1, h2.2.1], h2.2.2⟩
          · exact Or.inr ⟨h2.1, h1.2.1, h1.2.2⟩
      · intro i h
        exact hkeepF i (make_flips_keeps c p m d hwf hp hm hd i h)

/-- When no direction would flip, the direction fold of make_move leaves the
board unchanged. -/
lemma fold_flips_id (p : Nat) (m : Int) :
    ∀ (L : List Int) (c : Board), (∀ d ∈ L, would_flip m d p c = 0) →
      L.foldl (fun bb dir => make_flips m dir p bb) c = c := by
  intro L
  induction L with
  | nil => exact fun c _ => rfl
  | cons d L2 ih =>
      intro c h
      rw [List.foldl_cons, make_flips_id m d p c (h d (List.mem_cons_self d L2))]
      exact ih c (fun d2 h2 => h d2 (List.mem_cons_of_mem d h2))

/-- When some direction of the list would flip, the direction fold changes at
least one cell from the opponent's colour to the player's. -/
lemma fold_flips_progress (p : Nat) (m : Int) (hp : p = BLACK ∨ p = WHITE)
    (hm : validp m = true) :
    ∀ (L : List Int) (c : Board), (∀ d ∈ L, d ∈ ALLDIRECTIONS) → WellFormedBoard c →
      (∃ d ∈ L, would_flip m d p c ≠ 0) →
      ∃ i : Int, rd c i = opponent p ∧
        rd (L.foldl (fun bb dir => make_flips m dir p bb) c) i = p := by
  intro L
  induction L with
  | nil => intro c _ _ hex; simp at hex
  | cons d L2 ih =>
      intro c hdirs hwf hex
      have hd : d ∈ ALLDIRECTIONS := hdirs d (List.mem_cons_self d L2)
      have hdirs2 : ∀ d2 ∈ L2, d2 ∈ ALLDIRECTIONS :=
        fun d2 h2 => hdirs d2 (List.mem_cons_of_mem d h2)
      rw [List.foldl_cons]
      by_cases hw : would_flip m d p c ≠ 0
      · rcases make_flips_guard c p m d hwf hp hm hd hw with ⟨hopp, hset⟩
        refine ⟨m + d, hopp, ?_⟩
        exact (fold_flips_master p m hp hm L2 (make_flips m d p c) hdirs2
          (make_flips_wf c p m d hwf hp hm hd)).2.2 (m + d) hset
      · push_neg at hw
        rw [make_flips_id m d p c hw]
        refine ih c hdirs2 hwf ?_
        rcases hex with ⟨d2, hd2, hwd2⟩
        rcases List.mem_cons.mp hd2 with h | h
        · exfalso
          rw [h] at hwd2
          exact hwd2 hw
        · exact ⟨d2, h, hwd2⟩

lemma idx188_nodup : idx188.Nodup := by decide

lemma mem_idx188 (i : Int) : i ∈ idx188 ↔ 1 ≤ i ∧ i ≤ 88 := by
  constructor
  · intro h
    rcases List.mem_map.mp h with ⟨k, hk, hkeq⟩
    rw [List.mem_range] at hk
    have h2 : (k : Int) + 1 = i := hkeq
    omega
  · intro h
    refine List.mem_map.mpr ⟨(i - 1).toNat, List.mem_range.mpr (by omega), ?_⟩
    show ((i - 1).toNat : Int) + 1 = i
    omega

lemma rd_wf_mem (b : Board) (hwf : WellFormedBoard b) (i : Int)
    (hv : validp i = true) :
    rd b i = EMPTY ∨ rd b i = BLACK ∨ rd b i = WHITE := by
  have hr := validp_in_range i hv
  unfold rd
  rw [dif_pos ⟨hr.1, by omega⟩]
  refine (hwf ⟨i.toNat, by omega⟩).1 ?_
  rwa [show (((⟨i.toNat, by omega⟩ : Fin 100) : Nat) : Int) = i by
    simp [Int.toNat_of_nonneg hr.1]]

/-- Counting a predicate through a change that only turns cells to p: the
p-count grows by exactly the number of changed cells. -/
lemma countP_to_p (p : Nat) (b b2 : Board) :
    ∀ l : List Int,
      (∀ i ∈ l, rd b2 i = rd b i ∨ (rd b2 i = p ∧ rd b i ≠ p)) →
      l.countP (fun i => rd b2 i == p) =
        l.countP (fun i => rd b i == p) + l.countP (fun i => !(rd b2 i == rd b i)) := by
  intro l
  induction l with
  | nil => intro _; rfl
  | cons x t ih =>
      intro H
      have hx := H x (List.mem_cons_self x t)
      have ht := ih (fun i hi => H i (List.mem_cons_of_mem x hi))
      simp only [List.countP_cons]
      rcases hx with h | h
      · rw [h]
        by_cases hp2 : rd b x = p <;> simp [hp2, ht] <;> omega
      · have h1 : (rd b2 x == p) = true := beq_iff_eq.mpr h.1
        have h2 : (rd b x == p) = false := beq_eq_false_iff_ne.mpr h.2
        have h3 : (rd b2 x == rd b x) = false :=
          beq_eq_false_iff_ne.mpr (by rw [h.1]; exact fun hc => h.2 hc.symm)
        rw [h1, h2, h3]
        simp [ht]
        omega

/-- Counting a colour q other than p through a change that only turns cells
to p: the q-count shrinks by exactly the changed cells that held q. -/
lemma countP_from_q (p q : Nat) (b b2 : Board) (hqp : q ≠ p) :
    ∀ l : List Int,
      (∀ i ∈ l, rd b2 i = rd b i ∨ (rd b2 i = p ∧ rd b i ≠ p)) →
      l.countP (fun i => rd b i == q) =
        l.countP (fun i => rd b2 i == q) +
          l.countP (fun i => !(rd b2 i == rd b i) && (rd b i == q)) := by
  intro l
  induction l with
  | nil => intro _; rfl
  | cons x t ih =>
      intro H
      have hx := H x (List.mem_cons_self x t)
      have ht := ih (fun i hi => H i (List.mem_cons_of_mem x hi))
      simp only [List.countP_cons]
      rcases hx with h | h
      · rw [h]
        have h3 : (rd b x == rd b x) = true := beq_iff_eq.mpr rfl
        rw [h3]
        by_cases hq : rd b x = q <;> simp [hq, ht] <;> omega
      · have h1 : (rd b2 x == q) = false :=
          beq_eq_false_iff_ne.mpr (by rw [h.1]; exact fun hc => hqp hc.symm)
        have h3 : (rd b2 x == rd b x) = false :=
          beq_eq_false_iff_ne.mpr (by rw [h.1]; exact fun hc => h.2 hc.symm)
        rw [h1, h3]
        by_cases hq : rd b x = q <;> simp [hq, ht] <;> omega

/-- A conjunction with a membership test of a single cell of a list without
duplicates counts at most that cell. -/
lemma countP_and_eq_single (m : Int) (g : Int → Bool) :
    ∀ l : List Int, l.Nodup → m ∈ l →
      l.countP (fun i => g i && (i == m)) = if g m then 1 else 0 := by
  intro l
  induction l with
  | nil => intro _ h; simp at h
  | cons x t ih =>
      intro hnd hm
      simp only [List.countP_cons]
      rcases List.mem_cons.mp hm with h | h
      · subst h
        have hzero : t.countP (fun i => g i && (i == m)) = 0 := by
          rw [List.countP_eq_zero]
          intro a ha
          have haa : a ≠ m := fun hc => (List.nodup_cons.mp hnd).1 (hc ▸ ha)
          simp [haa]
        rw [hzero]
        have hmm : (m == m) = true := beq_iff_eq.mpr rfl
        rw [hmm]
        by_cases hg : g m <;> simp [hg]
      · have hxm : x ≠ m := by
          intro hc
          exact (List.nodup_cons.mp hnd).1 (hc ▸ h)
        have : (x == m) = false := beq_eq_false_iff_ne.mpr hxm
        rw [this]
        simp only [Bool.and_false, if_false]
        exact ih (List.nodup_cons.mp hnd).2 h

/-- Boolean partition of a count along the membership test of one cell. -/
lemma countP_split_m (m : Int) (f : Int → Bool) :
    ∀ l : List Int,
      l.countP f = l.countP (fun i => f i && !(i == m)) + l.countP (fun i => f i && (i == m)) := by
  intro l
  induction l with
  | nil => rfl
  | cons x t ih =>
      simp only [List.countP_cons]
      by_cases hf : f x <;> by_cases hxm : x = m <;>
        simp [hf, hxm, ih] <;> omega

/-- The three colour counts of the interior taken together are conserved by a
change that only turns EMPTY or opponent cells of a well-formed board to the
player's colour. -/
lemma count_triple_conserved (p : Nat) (hp : p = BLACK ∨ p = WHITE) (b b2 : Board) :
    ∀ l : List Int,
      (∀ i ∈ l, rd b2 i = rd b i ∨
        (rd b2 i = p ∧ (rd b i = EMPTY ∨ rd b i = BLACK ∨ rd b i = WHITE))) →
      l.countP (fun i => rd b2 i == BLACK) + l.countP (fun i => rd b2 i == WHITE) +
          l.countP (fun i => rd b2 i == EMPTY) =
        l.countP (fun i => rd b i == BLACK) + l.countP (fun i => rd b i == WHITE) +
          l.countP (fun i => rd b i == EMPTY) := by
  intro l
  induction l with
  | nil => intro _; rfl
  | cons x t ih =>
      intro H
      have hx := H x (List.mem_cons_self x t)
      have ht := ih (fun i hi => H i (List.mem_cons_of_mem x hi))
      simp only [List.countP_cons]
      rcases hx with h | h
      · rw [h]; omega
      · rcases hp with hpb | hpb <;> subst hpb <;>
          rcases h.2 with h2 | h2 | h2 <;>
          rw [h.1, h2] <;> simp [EMPTY, BLACK, WHITE] at ht ⊢ <;> omega

lemma p_ne_empty (p : Nat) (hp : p = BLACK ∨ p = WHITE) : p ≠ EMPTY := by
  rcases hp with h | h <;> subst h <;> decide

/-- make_move places the player's piece on the move cell (and no flip run
ever rewrites the move cell). -/
lemma make_move_cell_m (b : Board) (p : Nat) (m : Int)
    (hwf : WellFormedBoard b) (hp : p = BLACK ∨ p = WHITE) (hm : validp m = true) :
    rd (make_move m p b) m = p := by
  have hr := validp_in_range m hm
  have hc0 : rd (wr b m p) m = p := rd_wr_eq b m p hr.1 hr.2
  unfold make_move
  rcases (fold_flips_master p m hp hm ALLDIRECTIONS (wr b m p) (fun d hd => hd)
    (wf_wr b hwf m p hm hp)).2.1 m with h | h
  · rw [h, hc0]
  · exact absurd rfl h.2.2

/-- Pointwise effect of make_move: a cell keeps its value or is turned to the
player's colour, in which case it is the move cell or held the opponent's
colour. -/
lemma make_move_rel (b : Board) (p : Nat) (m : Int)
    (hwf : WellFormedBoard b) (hp : p = BLACK ∨ p = WHITE) (hm : validp m = true)
    (i : Int) :
    rd (make_move m p b) i = rd b i ∨
      (rd (make_move m p b) i = p ∧ (i = m ∨ rd b i = opponent p)) := by
  by_cases him : i = m
  · subst him
    exact Or.inr ⟨make_move_cell_m b p i hwf hp hm, Or.inl rfl⟩
  · have hc0 : rd (wr b m p) i = rd b i := rd_wr_ne b m p i him
    unfold make_move
    rcases (fold_flips_master p m hp hm ALLDIRECTIONS (wr b m p) (fun d hd => hd)
      (wf_wr b hwf m p hm hp)).2.1 i with h | h
    · exact Or.inl (by rw [h, hc0])
    · exact Or.inr ⟨h.1, Or.inr (by rw [← hc0]; exact h.2.1)⟩

/-- When no direction would flip, make_move only places the piece. -/
lemma make_move_noflip (b : Board) (p : Nat) (m : Int)
    (hd0 : ∀ d ∈ ALLDIRECTIONS, would_flip m d p b = 0) :
    make_move m p b = wr b m p := by
  unfold make_move
  refine fold_flips_id p m ALLDIRECTIONS (wr b m p) ?_
  intro d hd
  rw [wouldFlip_wr_m b p p m d hd]
  exact hd0 d hd

/-- When some direction would flip, make_move converts at least one
non-move cell from the opponent's colour to the player's. -/
lemma make_move_progress (b : Board) (p : Nat) (m : Int)
    (hwf : WellFormedBoard b) (hp : p = BLACK ∨ p = WHITE) (hm : validp m = true)
    (hex : ∃ d ∈ ALLDIRECTIONS, would_flip m d p b ≠ 0) :
    ∃ i : Int, i ≠ m ∧ rd b i = opponent p ∧ rd (make_move m p b) i = p := by
  have hr := validp_in_range m hm
  have hex0 : ∃ d ∈ ALLDIRECTIONS, would_flip m d p (wr b m p) ≠ 0 := by
    rcases hex with ⟨d, hd, hw⟩
    exact ⟨d, hd, by rw [wouldFlip_wr_m b p p m d hd]; exact hw⟩
  rcases fold_flips_progress p m hp hm ALLDIRECTIONS (wr b m p) (fun d hd => hd)
    (wf_wr b hwf m p hm hp) hex0 with ⟨i, hopp, hfin⟩
  have him : i ≠ m := by
    intro hc
    subst hc
    rw [rd_wr_eq b i p hr.1 hr.2] at hopp
    exact opp_ne_self p hp hopp.symm
  exact ⟨i, him, by rw [← rd_wr_ne b m p i him]; exact hopp, hfin⟩

/-- Unfolding of legalp into its three conditions. -/
lemma legalp_iff (m : Int) (p : Nat) (b : Board) :
    legalp m p b = true ↔
      validp m = true ∧ rd b m = EMPTY ∧
        ∃ d ∈ ALLDIRECTIONS, would_flip m d p b ≠ 0 := by
  unfold legalp
  simp only [List.any_eq_true, Bool.and_eq_true, beq_iff_eq, bne_iff_ne]
  tauto

lemma mm_H (b : Board) (p : Nat) (m : Int)
    (hwf : WellFormedBoard b) (hp : p = BLACK ∨ p = WHITE) (hm : validp m = true)
    (hpm : rd b m ≠ p) :
    ∀ i ∈ idx188, rd (make_move m p b) i = rd b i ∨
      (rd (make_move m p b) i = p ∧ rd b i ≠ p) := by
  intro i _
  rcases make_move_rel b p m hwf hp hm i with h | h
  · exact Or.inl h
  · refine Or.inr ⟨h.1, ?_⟩
    rcases h.2 with hc | hc
    · rw [hc]; exact hpm
    · rw [hc]; exact fun hcc => opp_ne_self p hp hcc

lemma mm_changed_opp (b : Board) (p : Nat) (m : Int)
    (hwf : WellFormedBoard b) (hp : p = BLACK ∨ p = WHITE) (hm : validp m = true)
    (hmm : rd b m = p ∨ rd b m = opponent p) :
    ∀ i ∈ idx188,
      (!(rd (make_move m p b) i == rd b i)) =
        (!(rd (make_move m p b) i == rd b i) && (rd b i == opponent p)) := by
  intro i _
  by_cases hch : rd (make_move m p b) i = rd b i
  · rw [beq_iff_eq.mpr hch]
    rfl
  · have hbeq : (rd (make_move m p b) i == rd b i) = false := beq_eq_false_iff_ne.mpr hch
    rw [hbeq]
    rcases make_move_rel b p m hwf hp hm i with h | h
    · exact absurd h hch
    · rcases h.2 with hc | hc
      · subst hc
        rcases hmm with h2 | h2
        · exact absurd (by rw [h.1, h2]) hch
        · rw [beq_iff_eq.mpr h2]
          rfl
      · rw [beq_iff_eq.mpr hc]
        rfl

/-- Count bookkeeping of a legal move: the player gains the placed piece plus
as many pieces as the opponent loses, and the opponent loses at least one. -/
lemma mm_counts_legal (b : Board) (p : Nat) (m : Int)
    (hwf : WellFormedBoard b) (hp : p = BLACK ∨ p = WHITE) (hm : validp m = true)
    (hE : rd b m = EMPTY)
    (hex : ∃ d ∈ ALLDIRECTIONS, would_flip m d p b ≠ 0) :
    count p b + 2 ≤ count p (make_move m p b) ∧
      (count (opponent p) (make_move m p b) : Int) =
        (count (opponent p) b : Int) -
          ((count p (make_move m p b) : Int) - (count p b : Int) - 1) := by
  have hpm : rd b m ≠ p := by rw [hE]; exact fun hc => p_ne_empty p hp hc.symm
  have hmem : m ∈ idx188 := (mem_idx188 m).mpr (by have := validp_bounds m hm; omega)
  have hH := mm_H b p m hwf hp hm hpm
  have hE1 : count p (make_move m p b) = count p b +
      idx188.countP (fun i => !(rd (make_move m p b) i == rd b i)) :=
    countP_to_p p b (make_move m p b) idx188 hH
  have hE2 : count (opponent p) b = count (opponent p) (make_move m p b) +
      idx188.countP (fun i => !(rd (make_move m p b) i == rd b i) && (rd b i == opponent p)) :=
    countP_from_q p (opponent p) b (make_move m p b)
      (fun hc => opp_ne_self p hp hc) idx188 hH
  have hchgm : (!(rd (make_move m p b) m == rd b m)) = true := by
    rw [make_move_cell_m b p m hwf hp hm, hE]
    simp [beq_eq_false_iff_ne, p_ne_empty p hp]
  have hsplit : idx188.countP (fun i => !(rd (make_move m p b) i == rd b i)) =
      idx188.countP (fun i => !(rd (make_move m p b) i == rd b i) && !(i == m)) +
        idx188.countP (fun i => !(rd (make_move m p b) i == rd b i) && (i == m)) :=
    countP_split_m m (fun i => !(rd (make_move m p b) i == rd b i)) idx188
  have hsingle : idx188.countP
      (fun i => !(rd (make_move m p b) i == rd b i) && (i == m)) = 1 := by
    have h := countP_and_eq_single m (fun i => !(rd (make_move m p b) i == rd b i))
      idx188 idx188_nodup hmem
    simpa [hchgm] using h
  have hoppE : opponent p ≠ EMPTY := p_ne_empty (opponent p) (opp_of_real p hp)
  have hoffm : idx188.countP
      (fun i => !(rd (make_move m p b) i == rd b i) && !(i == m)) =
    idx188.countP
      (fun i => !(rd (make_move m p b) i == rd b i) && (rd b i == opponent p)) := by
    refine List.countP_congr ?_
    intro i hi
    refine (iff_of_eq (congrArg (· = true) ?_))
    by_cases him : i = m
    · subst him
      have h1 : (i == i) = true := beq_iff_eq.mpr rfl
      have h2 : (rd b i == opponent p) = false := by
        rw [hE]
        exact beq_eq_false_iff_ne.mpr (fun hc => hoppE hc.symm)
      rw [h1, h2]
      simp
    · have h1 : (i == m) = false := beq_eq_false_iff_ne.mpr him
      rw [h1]
      by_cases hch : rd (make_move m p b) i = rd b i
      · rw [beq_iff_eq.mpr hch]
        rfl
      · have hbeq : (rd (make_move m p b) i == rd b i) = false :=
          beq_eq_false_iff_ne.mpr hch
        rw [hbeq]
        rcases make_move_rel b p m hwf hp hm i with h | h
        · exact absurd h hch
        · rcases h.2 with hc | hc
          · exact absurd hc him
          · rw [beq_iff_eq.mpr hc]
            rfl
  have hprog : 0 < idx188.countP
      (fun i => !(rd (make_move m p b) i == rd b i) && (rd b i == opponent p)) := by
    rcases make_move_progress b p m hwf hp hm hex with ⟨i0, hne, hopp, hset⟩
    refine List.countP_pos.mpr ⟨i0, ?_, ?_⟩
    · have hv := (wf_real_cell_interior b hwf i0 (opponent p) (opp_of_real p hp) hopp).1
      exact (mem_idx188 i0).mpr (by have := validp_bounds i0 hv; omega)
    · have h1 : (rd (make_move m p b) i0 == rd b i0) = false := by
        refine beq_eq_false_iff_ne.mpr ?_
        rw [hset, hopp]
        exact fun hc => opp_ne_self p hp hc.symm
      rw [h1, beq_iff_eq.mpr hopp]
      rfl
  omega

/-- Count bookkeeping of placing on an occupied cell: every changed cell was
an opponent cell, so the balance equation of the claim (which accounts for
one placed piece) is off by exactly one. -/
lemma mm_counts_occupied (b : Board) (p : Nat) (m : Int)
    (hwf : WellFormedBoard b) (hp : p = BLACK ∨ p = WHITE) (hm : validp m = true)
    (hmm : rd b m = p ∨ rd b m = opponent p) :
    (count (opponent p) (make_move m p b) : Int) ≠
      (count (opponent p) b : Int) -
        ((count p (make_move m p b) : Int) - (count p b : Int) - 1) := by
  have hH : ∀ i ∈ idx188, rd (make_move m p b) i = rd b i ∨
      (rd (make_move m p b) i = p ∧ rd b i ≠ p) := by
    intro i hi
    by_cases hch : rd (make_move m p b) i = rd b i
    · exact Or.inl hch
    · rcases make_move_rel b p m hwf hp hm i with h | h
      · exact absurd h hch
      · refine Or.inr ⟨h.1, ?_⟩
        rcases h.2 with hc | hc
        · subst hc
          rcases hmm with h2 | h2
          · exact absurd (by rw [h.1, h2]) hch
          · rw [h2]; exact fun hcc => opp_ne_self p hp hcc
        · rw [hc]; exact fun hcc => opp_ne_self p hp hcc
  have hE1 : count p (make_move m p b) = count p b +
      idx188.countP (fun i => !(rd (make_move m p b) i == rd b i)) :=
    countP_to_p p b (make_move m p b) idx188 hH
  have hE2 : count (opponent p) b = count (opponent p) (make_move m p b) +
      idx188.countP (fun i => !(rd (make_move m p b) i == rd b i) && (rd b i == opponent p)) :=
    countP_from_q p (opponent p) b (make_move m p b)
      (fun hc => opp_ne_self p hp hc) idx188 hH
  have hcongr : idx188.countP (fun i => !(rd (make_move m p b) i == rd b i)) =
      idx188.countP (fun i => !(rd (make_move m p b) i == rd b i) && (rd b i == opponent p)) := by
    refine List.countP_congr ?_
    intro i hi
    exact iff_of_eq (congrArg (· = true) (mm_changed_opp b p m hwf hp hm hmm i hi))
  omega

/-- Count bookkeeping of a non-flipping placement on an empty cell: the
player gains exactly the placed piece. -/
lemma mm_counts_noflip (b : Board) (p : Nat) (m : Int)
    (hwf : WellFormedBoard b) (hp : p = BLACK ∨ p = WHITE) (hm : validp m = true)
    (hE : rd b m = EMPTY)
    (hno : ∀ d ∈ ALLDIRECTIONS, would_flip m d p b = 0) :
    count p (make_move m p b) = count p b + 1 := by
  have hr := validp_in_range m hm
  have hmem : m ∈ idx188 := (mem_idx188 m).mpr (by have := validp_bounds m hm; omega)
  have hb2 : make_move m p b = wr b m p := make_move_noflip b p m hno
  have hH : ∀ i ∈ idx188, rd (make_move m p b) i = rd b i ∨
      (rd (make_move m p b) i = p ∧ rd b i ≠ p) := by
    intro i _
    rw [hb2]
    by_cases him : i = m
    · subst him
      exact Or.inr ⟨rd_wr_eq b i p hr.1 hr.2,
        by rw [hE]; exact fun hc => p_ne_empty p hp hc.symm⟩
    · exact Or.inl (rd_wr_ne b m p i him)
  have hE1 : count p (make_move m p b) = count p b +
      idx188.countP (fun i => !(rd (make_move m p b) i == rd b i)) :=
    countP_to_p p b (make_move m p b) idx188 hH
  have hchg : idx188.countP (fun i => !(rd (make_move m p b) i == rd b i)) =
      idx188.countP (fun i => (true : Bool) && (i == m)) := by
    refine List.countP_congr ?_
    intro i _
    refine (iff_of_eq (congrArg (· = true) ?_))
    rw [hb2]
    by_cases him : i = m
    · subst him
      have h1 : (rd (wr b i p) i == rd b i) = false := by
        rw [rd_wr_eq b i p hr.1 hr.2, hE]
        exact beq_eq_false_iff_ne.mpr (p_ne_empty p hp)
      rw [h1]
      simp
    · have h1 : (rd (wr b m p) i == rd b i) = true :=
        beq_iff_eq.mpr (rd_wr_ne b m p i him)
      rw [h1]
      have h2 : (i == m) = false := beq_eq_false_iff_ne.mpr him
      rw [h2]
      rfl
  have hsingle : idx188.countP (fun i => (true : Bool) && (i == m)) = 1 := by
    have h := countP_and_eq_single m (fun _ : Int => true) idx188 idx188_nodup hmem
    simpa using h
  omega

/-- C6 (confirmed).  On a well-formed board, for a real player and an
interior move cell: the move is legal exactly when make_move strictly
increases the player's piece count by at least 2 - the placed piece plus at
least one flipped piece, so the flipped amount is the increase minus one -
while the opponent's count decreases by exactly that flipped amount;
moreover the combined BLACK + WHITE + EMPTY count over cells 1..88 is
conserved and no non-interior (OUTER) cell is ever written. -/
theorem C6_legal_iff_flip_effect (b : Board) (p : Nat) (m : Int)
    (hwf : WellFormedBoard b) (hp : p = BLACK ∨ p = WHITE) (hm : validp m = true) :
    (legalp m p b = true ↔
      (count p b + 2 ≤ count p (make_move m p b) ∧
        (count (opponent p) (make_move m p b) : Int) =
          (count (opponent p) b : Int) -
            ((count p (make_move m p b) : Int) - (count p b : Int) - 1))) ∧
    (count BLACK (make_move m p b) + count WHITE (make_move m p b) +
        count EMPTY (make_move m p b) =
      count BLACK b + count WHITE b + count EMPTY b) ∧
    (∀ i : Int, validp i = false → rd (make_move m p b) i = rd b i) := by
  refine ⟨⟨?_, ?_⟩, ?_, ?_⟩
  · intro hleg
    rcases (legalp_iff m p b).mp hleg with ⟨_, hE, hex⟩
    exact mm_counts_legal b p m hwf hp hm hE hex
  · intro hrhs
    rcases rd_wf_mem b hwf m hm with hE | hB | hW
    · refine (legalp_iff m p b).mpr ⟨hm, hE, ?_⟩
      by_contra hno
      push_neg at hno
      have h1 := mm_counts_noflip b p m hwf hp hm hE hno
      omega
    · exfalso
      have hmm : rd b m = p ∨ rd b m = opponent p := by
        rcases hp with hpb | hpb
        · exact Or.inl (by rw [hB, hpb])
        · exact Or.inr (by rw [hB, hpb]; rfl)
      exact mm_counts_occupied b p m hwf hp hm hmm hrhs.2
    · exfalso
      have hmm : rd b m = p ∨ rd b m = opponent p := by
        rcases hp with hpb | hpb
        · exact Or.inr (by rw [hW, hpb]; rfl)
        · exact Or.inl (by rw [hW, hpb])
      exact mm_counts_occupied b p m hwf hp hm hmm hrhs.2
  · refine count_triple_conserved p hp b (make_move m p b) idx188 ?_
    intro i _
    rcases make_move_rel b p m hwf hp hm i with h | h
    · exact Or.inl h
    · refine Or.inr ⟨h.1, ?_⟩
      rcases h.2 with hc | hc
      · subst hc
        exact rd_wf_mem b hwf i hm
      · rcases opp_of_real p hp with h2 | h2
        · exact Or.inr (Or.inl (hc.trans h2))
        · exact Or.inr (Or.inr (hc.trans h2))
  · intro i hvi
    rcases make_move_rel b p m hwf hp hm i with h | h
    · exact h
    · exfalso
      rcases h.2 with hc | hc
      · rw [hc, hm] at hvi
        cases hvi
      · have hv := (wf_real_cell_interior b hwf i (opponent p) (opp_of_real p hp) hc).1
        rw [hv] at hvi
        cases hvi

/-- C6 witness: the full statement at the initial position for BLACK and the
opening move 34, hypotheses discharged concretely (the move is legal, BLACK
goes from 2 to 4 pieces, WHITE from 2 to 1). -/
theorem C6_legal_iff_flip_effect_witness :
    (WellFormedBoard initialBoard ∧ validp 34 = true) ∧
    ((legalp 34 BLACK initialBoard = true ↔
      (count BLACK initialBoard + 2 ≤ count BLACK (make_move 34 BLACK initialBoard) ∧
        (count (opponent BLACK) (make_move 34 BLACK initialBoard) : Int) =
          (count (opponent BLACK) initialBoard : Int) -
            ((count BLACK (make_move 34 BLACK initialBoard) : Int) -
              (count BLACK initialBoard : Int) - 1))) ∧
    (count BLACK (make_move 34 BLACK initialBoard) +
        count WHITE (make_move 34 BLACK initialBoard) +
        count EMPTY (make_move 34 BLACK initialBoard) =
      count BLACK initialBoard + count WHITE initialBoard + count EMPTY initialBoard) ∧
    (∀ i : Int, validp i = false →
      rd (make_move 34 BLACK initialBoard) i = rd initialBoard i)) :=
  ⟨⟨by decide, by decide⟩,
   C6_legal_iff_flip_effect initialBoard BLACK 34 (by decide) (Or.inl rfl) (by decide)⟩
